import Mathlib

/-!
Shallow embedding of the json-parser repository core (src/lexical.rs and
src/parsing.rs) and verification of its specification claims.

Rust strings are modelled as `List Char`; `str::len` (UTF-8 byte count) is
modelled by `rustLen`.  Machine `usize` counters are modelled by `Nat`
(no overflow is relevant).  `f64` decoding (`str::parse::<f64>`) is modelled
exactly over `ℚ` by `parseF64`, implementing the grammar Rust accepts for
finite decimal literals (sign, digits, fraction, exponent); the special
literals inf/infinity/nan are mapped to `none` — of the tokens the lexer can
produce only ones starting with a minus sign could spell them, and no claim
exercises them.  Rust `panic!`/`assert!` sites are modelled explicitly by a
`panicked` outcome, and loop recursion is made structural on an explicit
`fuel` counter (the top level supplies a linear amount; `fuelOut` marks
exhaustion).
-/

set_option maxHeartbeats 1000000

namespace JPS

/-- Rust `char::is_whitespace` (Unicode White_Space property). -/
def rustIsWhitespace (c : Char) : Bool :=
  c.toNat ∈ [0x09, 0x0A, 0x0B, 0x0C, 0x0D, 0x20, 0x85, 0xA0, 0x1680,
    0x2000, 0x2001, 0x2002, 0x2003, 0x2004, 0x2005, 0x2006, 0x2007,
    0x2008, 0x2009, 0x200A, 0x2028, 0x2029, 0x202F, 0x205F, 0x3000]

/-- Number of bytes of the UTF-8 encoding of one character. -/
def charUtf8Size (c : Char) : Nat :=
  if c.toNat < 0x80 then 1
  else if c.toNat < 0x800 then 2
  else if c.toNat < 0x10000 then 3
  else 4

/-- Rust `str::len`: the UTF-8 byte length of a string. -/
def rustLen (s : List Char) : Nat := (s.map charUtf8Size).sum

/-- `Token::is_punctuation` from src/lexical.rs. -/
def isPunct (c : Char) : Bool := c ∈ [',', ':', '{', '}', '[', ']']

def isDigit (c : Char) : Bool := '0' ≤ c ∧ c ≤ '9'

/-- `Token` from src/lexical.rs. -/
inductive Token where
  | newLine : Token
  | whitespace (spaces : Nat) : Token
  | null : Token
  | bool (b : List Char) : Token
  | string (s : List Char) : Token
  | number (s : List Char) : Token
  | punctuation (c : Char) : Token
  deriving DecidableEq, Repr

/-- `Token::is_whitespace`. -/
def Token.is_whitespace : Token → Bool
  | .newLine => true
  | .whitespace _ => true
  | _ => false

/-- `Token::len`.  Rust calls `String::len`, a byte count, on the captured
text, modelled by `rustLen`. -/
def Token.len : Token → Nat
  | .newLine => 1
  | .whitespace spaces => spaces
  | .null => 4
  | .bool b => rustLen b
  | .string s => rustLen s
  | .number s => rustLen s
  | .punctuation _ => 1

/-- `ErrorCode` as used by src/parsing.rs (`InvalidNumber` carries the
offending span there). -/
inductive ErrorCode where
  | expectedToken
  | expectedDoubleQuote
  | expectedColon
  | expectedCommaOrEndWhileParsing (delim : Char)
  | keyMustBeAString
  | invalidNumber (s : List Char)
  | endOfFileExpected
  | endOfFileWhileParsing (delim : Char)
  | endOfFileWhileParsingValue
  deriving DecidableEq, Repr

/-- `Error` from src/errors.rs: a code with a line and column. -/
structure Error where
  code : ErrorCode
  line : Nat
  col : Nat
  deriving DecidableEq, Repr

/-- The inner peek loop of the whitespace arm of `tokenize_into_strings`:
count following space/tab characters (each is pushed as one space). -/
def takeSpaces : List Char → Nat × List Char
  | [] => (0, [])
  | c :: cs =>
    if c = ' ' ∨ c = '\t' then
      let (k, r) := takeSpaces cs
      (k + 1, r)
    else (0, c :: cs)

theorem takeSpaces_length_le (cs : List Char) : (takeSpaces cs).2.length ≤ cs.length := by
  induction cs with
  | nil => simp [takeSpaces]
  | cons c cs ih =>
    by_cases h : c = ' ' ∨ c = '\t'
    · simp only [takeSpaces, h, if_true]
      exact Nat.le_succ_of_le ih
    · simp [takeSpaces, h]

/-- The character loop of `tokenize_into_strings` from src/lexical.rs, with
the in-quotes flag and the in-progress token made explicit.  The `fuel`
counter only makes the recursion structural (each iteration consumes at
least one character); `tokenize_into_strings` supplies one unit per
character, which never runs out, and the `[]` fallback at zero fuel is
unreachable. -/
def tokenizeAux : Nat → List Char → Bool → List Char → List (List Char)
  | 0, _, _, _ => []
  | _ + 1, [], _, cur => if cur = [] then [] else [cur]
  | fl + 1, c :: cs, inQ, cur =>
    if c = '"' then
      tokenizeAux fl cs (!inQ) (cur ++ ['"'])
    else if c = '\\' ∧ inQ then
      match cs with
      | [] => tokenizeAux fl [] inQ (cur ++ ['\\'])
      | d :: ds => tokenizeAux fl ds inQ (cur ++ ['\\', d])
    else if ¬inQ ∧ (isPunct c ∨ c = '\n' ∨ c = '\r') then
      (if cur = [] then [] else [cur]) ++ [c] :: tokenizeAux fl cs false []
    else if ¬inQ ∧ rustIsWhitespace c then
      (if cur = [] then [] else [cur]) ++
        List.replicate ((takeSpaces cs).1 + 1) ' ' :: tokenizeAux fl (takeSpaces cs).2 false []
    else
      tokenizeAux fl cs inQ (cur ++ [c])

/-- `tokenize_into_strings` from src/lexical.rs. -/
def tokenize_into_strings (possible_json : List Char) : List (List Char) :=
  tokenizeAux (possible_json.length + 1) possible_json false []

/-- `Token::try_from_token`.  The source asserts the input is nonempty (the
tokenizers never produce an empty string); the empty case maps to `none`. -/
def Token.try_from_token (token : List Char) : Option Token :=
  match token with
  | [] => none
  | c :: _ =>
    if rustLen token = 1 ∧ isPunct c then some (.punctuation c)
    else if c = ' ' then some (.whitespace (rustLen token))
    else if c = '\n' then some .newLine
    else if token = ['n', 'u', 'l', 'l'] then some .null
    else if token = ['f', 'a', 'l', 's', 'e'] then some (.bool token)
    else if token = ['t', 'r', 'u', 'e'] then some (.bool token)
    else if c = '"' then some (.string token)
    else if c = '-' then some (.number token)
    else if isDigit c then some (.number token)
    else none

/-- The token-string loop of `Token::try_from_json`: classify each string,
collecting tokens and errors while tracking line and column. -/
def tryFromJsonAux : List (List Char) → Nat → Nat → List Token × List Error
  | [], _, _ => ([], [])
  | token :: rest, line_number, col_number =>
    let line' := if token = ['\n'] then line_number + 1 else line_number
    let col' := if token = ['\n'] then 1 else col_number
    let (toks, errs) := tryFromJsonAux rest line' (col' + rustLen token)
    match Token.try_from_token token with
    | some t => (t :: toks, errs)
    | none => (toks, ⟨.expectedToken, line', col'⟩ :: errs)

/-- `Token::try_from_json` from src/lexical.rs. -/
def Token.try_from_json (possible_json : List Char) : Except (List Error) (List Token) :=
  let (tokens, errors) := tryFromJsonAux (tokenize_into_strings possible_json) 1 1
  if errors ≠ [] then .error errors else .ok tokens

def digitsToNat (ds : List Char) : Nat :=
  ds.foldl (fun a c => a * 10 + (c.toNat - '0'.toNat)) 0

/-- Model of Rust `str::parse::<f64>` over `ℚ`: optional sign, then
`Digit+ | Digit+ . Digit* | Digit* . Digit+`, then an optional exponent
`e|E` with optional sign and nonempty digits, consuming the whole string.
The value is computed exactly (Rust rounds to the nearest double; both the
embedded parser and the reference builder use this same function, so the
claims compared through it are unaffected).  The special literals
inf/infinity/nan map to `none`; only a token starting with a minus sign
could spell them and no claim exercises those. -/
def parseF64 (s : List Char) : Option ℚ :=
  let sgn : ℤ := match s with
    | '-' :: _ => -1
    | _ => 1
  let s1 := match s with
    | '-' :: r => r
    | '+' :: r => r
    | _ => s
  let ip := s1.takeWhile isDigit
  let s2 := s1.dropWhile isDigit
  let fp := match s2 with
    | '.' :: r => r.takeWhile isDigit
    | _ => []
  let s3 := match s2 with
    | '.' :: r => r.dropWhile isDigit
    | _ => s2
  if ip = [] ∧ fp = [] then none
  else
    -- the value sgn * (ip + fp / 10 ^ |fp|) * 10 ^ exp, assembled as a single
    -- normalized fraction (`mkRat`) of integer arithmetic
    let mant : ℤ := sgn * ((digitsToNat ip : ℤ) * (10 : ℤ) ^ fp.length + (digitsToNat fp : ℤ))
    match s3 with
    | [] => some (mkRat mant ((10 : ℕ) ^ fp.length))
    | c :: r =>
      if c = 'e' ∨ c = 'E' then
        let esgn : ℤ := match r with
          | '-' :: _ => -1
          | _ => 1
        let r2 := match r with
          | '-' :: rr => rr
          | '+' :: rr => rr
          | _ => r
        let ed := r2.takeWhile isDigit
        if ed = [] ∨ r2.dropWhile isDigit ≠ [] then none
        else
          let e : ℤ := esgn * (digitsToNat ed : ℤ) - (fp.length : ℤ)
          if 0 ≤ e then some (mkRat (mant * (10 : ℤ) ^ e.toNat) 1)
          else some (mkRat mant ((10 : ℕ) ^ (-e).toNat))
      else none

/-- `Value` from src/parsing.rs.  `Number` holds the model of `f64`
(`ℚ`, see `parseF64`); `Object` holds `HashMap<String, Value>` modelled
extensionally as an association list maintained by `insertMember`
(`HashMap::insert` semantics: replacing the value when the key is present). -/
inductive Value where
  | null : Value
  | bool (b : Bool) : Value
  | number (q : ℚ) : Value
  | string (s : List Char) : Value
  | array (elems : List Value) : Value
  | object (members : List (List Char × Value)) : Value
  deriving Repr

/-- `HashMap::insert`: replace the value of an existing key, else append. -/
def insertMember (ms : List (List Char × Value)) (k : List Char) (v : Value) :
    List (List Char × Value) :=
  match ms with
  | [] => [(k, v)]
  | (k', v') :: rest => if k' = k then (k, v) :: rest else (k', v') :: insertMember rest k v

/-- The mutable state of `Parser` from src/parsing.rs. -/
structure PState where
  tokens : List Token
  errors : List Error
  line_number : Nat
  col_number : Nat
  deriving Repr

/-- `self.errors.push(Error::new(code, self.line_number, self.col_number))`. -/
def PState.pushError (st : PState) (code : ErrorCode) : PState :=
  { st with errors := st.errors ++ [⟨code, st.line_number, st.col_number⟩] }

/-- Outcome of a parser routine: a normal return with the new state, a
`panic!`/failed `assert!`/`unwrap` (with the message), or fuel exhaustion
of the explicit recursion counter. -/
inductive PRes (α : Type) where
  | ok (val : α) (st : PState) : PRes α
  | panicked (msg : String) : PRes α
  | fuelOut : PRes α
  deriving Repr

/-- The loop of `Parser::parse_whitespace` on the token list with the
line and column counters. -/
def parseWsAux : List Token → Nat → Nat → List Token × Nat × Nat
  | Token.newLine :: rest, line_number, _ => parseWsAux rest (line_number + 1) 1
  | Token.whitespace num_chars :: rest, line_number, col_number =>
    parseWsAux rest line_number (col_number + num_chars)
  | toks, line_number, col_number => (toks, line_number, col_number)

/-- `Parser::parse_whitespace`. -/
def parse_whitespace (st : PState) : PState :=
  match parseWsAux st.tokens st.line_number st.col_number with
  | (toks, l, c) => { st with tokens := toks, line_number := l, col_number := c }

/-- The quotation-counting loop of `Parser::parse_string`: a backslash
immediately followed by a double quote consumes both; any other double
quote counts. -/
def countQuots : List Char → Nat
  | '\\' :: '"' :: rest => countQuots rest
  | '"' :: rest => countQuots rest + 1
  | _ :: rest => countQuots rest
  | [] => 0

/-- `Parser::parse_string`.  Note that it unconditionally consumes one
token from the state and advances the column by the byte length of its
argument; the source `assert!`s are modelled as `panicked`. -/
def parse_string (possible_string : List Char) (st : PState) : PRes (Option Value) :=
  match possible_string with
  | [] => .panicked "assertion failed in parse_string"
  | first :: rest =>
    if first = '"' then
      let s := first :: rest
      let num_quotations := countQuots s
      let last := s.getLast (by simp)
      let failed : Bool := rustLen s == 1 || num_quotations != 2 || last != '"'
      let st1 := if failed then st.pushError .expectedDoubleQuote else st
      let ret := if failed then none else some (Value.string (s.drop 1 |>.dropLast))
      .ok ret { st1 with tokens := st1.tokens.drop 1, col_number := st1.col_number + rustLen s }
    else .panicked "assertion failed in parse_string"

/-- `Parser::parse_number`; like `parse_string` it consumes one token and
advances the column by the byte length of its argument. -/
def parse_number (possible_number : List Char) (st : PState) : PRes (Option Value) :=
  match possible_number with
  | [] => .panicked "assertion failed in parse_number"
  | _ :: _ =>
    let st1 := match parseF64 possible_number with
      | some _ => st
      | none => st.pushError (.invalidNumber possible_number)
    let ret := (parseF64 possible_number).map Value.number
    .ok ret { st1 with tokens := st1.tokens.drop 1, col_number := st1.col_number + rustLen possible_number }

/-- `Parser::parse_sequence_separator`.  Returns whether the end of the
sequence was reached.  Note the final catch-all arm records an
`EndOfFileWhileParsing` diagnostic without consuming the offending token. -/
def parse_sequence_separator (endc : Char) (st0 : PState) : PRes Bool :=
  let st := parse_whitespace st0
  match st.tokens with
  | [] =>
    .ok true ({ st with tokens := ([] : List Token) }.pushError (.endOfFileWhileParsing endc))
  | [Token.punctuation ','] =>
    let st1 := ({ st with tokens := ([] : List Token) }.pushError (.endOfFileWhileParsing endc))
    .ok true { st1 with col_number := st1.col_number + 1 }
  | Token.punctuation ',' :: Token.punctuation p :: rest =>
    if p = endc then
      let st1 := { st with tokens := rest, col_number := st.col_number + 1 }
      let st2 := st1.pushError .expectedToken
      .ok true { st2 with col_number := st2.col_number + 1 }
    else
      .ok false { st with tokens := Token.punctuation p :: rest, col_number := st.col_number + 1 }
  | Token.punctuation ',' :: rest =>
    .ok false { st with tokens := rest, col_number := st.col_number + 1 }
  | Token.punctuation p :: rest =>
    if p = endc then .ok true { st with tokens := rest, col_number := st.col_number + 1 }
    else
      .ok false { st.pushError (.endOfFileWhileParsing endc) with
        col_number := st.col_number + (Token.punctuation p).len }
  | Token.newLine :: _ => .panicked "Should not be possible to encounter"
  | token :: _ =>
    .ok false { st.pushError (.endOfFileWhileParsing endc) with
      col_number := st.col_number + token.len }

mutual

/-- `Parser::parse_value`.  The source `panic!` arms (a whitespace token
surviving `parse_whitespace`, or a punctuation character outside JSON)
are modelled as `panicked`. -/
def parse_value (fuel : Nat) (st0 : PState) : PRes (Option Value) :=
  match fuel with
  | 0 => .fuelOut
  | f + 1 =>
    let st := parse_whitespace st0
    match st.tokens with
    | [] => .ok none (st.pushError .endOfFileWhileParsingValue)
    | Token.null :: rest =>
      .ok (some .null) { st with tokens := rest, col_number := st.col_number + 4 }
    | Token.bool val :: rest =>
      if val = ['t', 'r', 'u', 'e'] then
        .ok (some (.bool true)) { st with tokens := rest, col_number := st.col_number + rustLen val }
      else if val = ['f', 'a', 'l', 's', 'e'] then
        .ok (some (.bool false)) { st with tokens := rest, col_number := st.col_number + rustLen val }
      else .panicked "unwrap failed on bool parse"
    | Token.string val :: _ => parse_string val st
    | Token.number val :: _ => parse_number val st
    | Token.punctuation c :: _ =>
      if c = '{' then parse_object f st
      else if c = '[' then parse_array f st
      else if c = ',' ∨ c = '}' ∨ c = ']' then .ok none (st.pushError .expectedToken)
      else .panicked "is not a valid punctuation in JSON"
    | Token.newLine :: _ => .panicked "Should not be possible to encounter"
    | Token.whitespace _ :: _ => .panicked "Should not be possible to encounter"

/-- `Parser::parse_array`. -/
def parse_array (fuel : Nat) (st : PState) : PRes (Option Value) :=
  match fuel with
  | 0 => .fuelOut
  | f + 1 =>
    match st.tokens with
    | [Token.punctuation '['] =>
      let st1 := { st with col_number := st.col_number + 1, tokens := ([] : List Token) }
      .ok none (st1.pushError (.endOfFileWhileParsing ']'))
    | Token.punctuation '[' :: Token.punctuation ']' :: rest =>
      .ok (some (.array [])) { st with tokens := rest, col_number := st.col_number + 2 }
    | Token.punctuation '[' :: rest =>
      match parse_array_elements f { st with col_number := st.col_number + 1, tokens := rest } with
      | .ok r st' => .ok (r.map Value.array) st'
      | .panicked m => .panicked m
      | .fuelOut => .fuelOut
    | _ => .panicked "Arrays must start with a left bracket"

/-- `Parser::parse_array_elements` up to its loop. -/
def parse_array_elements (fuel : Nat) (st : PState) : PRes (Option (List Value)) :=
  match fuel with
  | 0 => .fuelOut
  | f + 1 =>
    if st.tokens = [] then .ok none (st.pushError (.endOfFileWhileParsing ']'))
    else parseArrayElementsLoop f [] st

/-- The element loop of `Parser::parse_array_elements`, with the growing
`elements` vector made explicit. -/
def parseArrayElementsLoop (fuel : Nat) (elements : List Value) (st0 : PState) :
    PRes (Option (List Value)) :=
  match fuel with
  | 0 => .fuelOut
  | f + 1 =>
    let st := parse_whitespace st0
    match parse_value f st with
    | .panicked m => .panicked m
    | .fuelOut => .fuelOut
    | .ok vOpt st1 =>
      let elements' := match vOpt with
        | some v => elements ++ [v]
        | none => elements
      match parseUntilLoop f ']' false st1 with
      | .panicked m => .panicked m
      | .fuelOut => .fuelOut
      | .ok _ st2 =>
        match parse_sequence_separator ']' st2 with
        | .panicked m => .panicked m
        | .fuelOut => .fuelOut
        | .ok reached st3 =>
          if reached then .ok (some elements') st3
          else parseArrayElementsLoop f elements' st3

/-- `Parser::parse_object`. -/
def parse_object (fuel : Nat) (st : PState) : PRes (Option Value) :=
  match fuel with
  | 0 => .fuelOut
  | f + 1 =>
    match st.tokens with
    | [Token.punctuation '{'] =>
      let st1 := { st with col_number := st.col_number + 1, tokens := ([] : List Token) }
      .ok none (st1.pushError (.endOfFileWhileParsing '}'))
    | Token.punctuation '{' :: Token.punctuation '}' :: rest =>
      .ok (some (.object [])) { st with tokens := rest, col_number := st.col_number + 2 }
    | Token.punctuation '{' :: rest =>
      match parse_object_members f { st with col_number := st.col_number + 1, tokens := rest } with
      | .ok r st' => .ok (r.map Value.object) st'
      | .panicked m => .panicked m
      | .fuelOut => .fuelOut
    | _ => .panicked "Objects must start with a left brace"

/-- `Parser::parse_object_members` up to its loop. -/
def parse_object_members (fuel : Nat) (st : PState) :
    PRes (Option (List (List Char × Value))) :=
  match fuel with
  | 0 => .fuelOut
  | f + 1 =>
    if st.tokens = [] then .ok none (st.pushError (.endOfFileWhileParsing '}'))
    else parseObjectMembersLoop f [] st

/-- The member loop of `Parser::parse_object_members`, with the growing
member map made explicit.  Note the first arm slices two tokens off and
`parse_string` then consumes a third; the empty-tokens arm is the source
`panic!`. -/
def parseObjectMembersLoop (fuel : Nat) (members : List (List Char × Value)) (st0 : PState) :
    PRes (Option (List (List Char × Value))) :=
  match fuel with
  | 0 => .fuelOut
  | f + 1 =>
    let st := parse_whitespace st0
    let step : PRes (List (List Char × Value)) :=
      match st.tokens with
      | Token.string s :: Token.punctuation ':' :: rest =>
        let st1 := { st with col_number := st.col_number + rustLen s + 1, tokens := rest }
        match parse_string s st1 with
        | .panicked m => .panicked m
        | .fuelOut => .fuelOut
        | .ok (some (Value.string key)) st2 =>
          match parse_value f st2 with
          | .panicked m => .panicked m
          | .fuelOut => .fuelOut
          | .ok (some v) st3 => .ok (insertMember members key v) st3
          | .ok none st3 => .ok members st3
        | .ok (some _) _ => .panicked "Should not be possible"
        | .ok none st2 =>
          match parse_value f st2 with
          | .panicked m => .panicked m
          | .fuelOut => .fuelOut
          | .ok _ st3 => .ok members st3
      | c :: Token.punctuation ':' :: rest =>
        let st1 := st.pushError .keyMustBeAString
        let st2 := { st1 with col_number := st1.col_number + c.len + 1, tokens := rest }
        match parse_value f st2 with
        | .panicked m => .panicked m
        | .fuelOut => .fuelOut
        | .ok _ st3 => .ok members st3
      | Token.punctuation ':' :: rest =>
        let st1 := st.pushError .keyMustBeAString
        let st2 := { st1 with col_number := st1.col_number + 1, tokens := rest }
        match parse_value f st2 with
        | .panicked m => .panicked m
        | .fuelOut => .fuelOut
        | .ok _ st3 => .ok members st3
      | Token.string s :: rest =>
        let st1 := st.pushError .expectedColon
        .ok members { st1 with col_number := st1.col_number + rustLen s, tokens := rest }
      | token :: rest =>
        let st1 := st.pushError .keyMustBeAString
        .ok members { st1 with col_number := st1.col_number + token.len, tokens := rest }
      | [] => .panicked "Should not be able to get an empty list"
    match step with
    | .panicked m => .panicked m
    | .fuelOut => .fuelOut
    | .ok members' stM =>
      match parseUntilLoop f '}' false stM with
      | .panicked m => .panicked m
      | .fuelOut => .fuelOut
      | .ok _ st2 =>
        match parse_sequence_separator '}' st2 with
        | .panicked m => .panicked m
        | .fuelOut => .fuelOut
        | .ok reached st3 =>
          if reached then .ok (some members') st3
          else parseObjectMembersLoop f members' st3

/-- The loop of `Parser::parse_until_comma_or_end`, with the
`seen_non_comma_value` flag made explicit (`false` on entry). -/
def parseUntilLoop (fuel : Nat) (endc : Char) (seen_non_comma_value : Bool) (st0 : PState) :
    PRes Unit :=
  match fuel with
  | 0 => .fuelOut
  | f + 1 =>
    let st := parse_whitespace st0
    match st.tokens with
    | [] =>
      .ok () (if seen_non_comma_value then st.pushError (.expectedCommaOrEndWhileParsing endc) else st)
    | tok :: rest =>
      if tok = Token.punctuation ',' then
        .ok () (if seen_non_comma_value then st.pushError (.expectedCommaOrEndWhileParsing endc) else st)
      else
        match tok with
        | Token.punctuation c =>
          if c = endc then
            .ok ()
              (if seen_non_comma_value then st.pushError (.expectedCommaOrEndWhileParsing endc) else st)
          else if c = ':' then
            match parse_value f { st with col_number := st.col_number + 1, tokens := rest } with
            | .panicked m => .panicked m
            | .fuelOut => .fuelOut
            | .ok _ st1 => parseUntilLoop f endc seen_non_comma_value st1
          else
            parseUntilLoop f endc true
              { st with col_number := st.col_number + (Token.punctuation c).len, tokens := rest }
        | _ => parseUntilLoop f endc true { st with col_number := st.col_number + tok.len, tokens := rest }

end

/-- `Parser::parse_until_comma_or_end` (the flag starts out `false`). -/
def parse_until_comma_or_end (fuel : Nat) (endc : Char) (st : PState) : PRes Unit :=
  parseUntilLoop fuel endc false st

/-- Abnormal-termination-aware result of the top-level `Parser::parse`. -/
inductive Run (α : Type) where
  | ok (a : α) : Run α
  | panicked (msg : String) : Run α
  | fuelOut : Run α
  deriving Repr

/-- Fuel passed to the recursive parser; linear in the token count, ample
for the recursion depth the parser can reach (it decreases only on nested
calls and loop iterations, each of which consumes input). -/
def parseFuel (tokens : List Token) : Nat := 16 * tokens.length + 16

/-- `Parser::parse` from src/parsing.rs: tokenize (an `Err` propagates via
`?`), run `parse_value`, then apply the top-level error / trailing-content
policy. -/
def parse (json : List Char) : Run (Except (List Error) Value) :=
  match Token.try_from_json json with
  | .error errs => .ok (.error errs)
  | .ok tokens =>
    match parse_value (parseFuel tokens) ⟨tokens, [], 1, 1⟩ with
    | .panicked m => .panicked m
    | .fuelOut => .fuelOut
    | .ok value_opt st =>
      if st.errors ≠ [] then .ok (.error st.errors)
      else
        match value_opt with
        | none => .ok (.error [⟨.endOfFileExpected, st.line_number, st.col_number⟩])
        | some v =>
          if ¬(st.tokens.all Token.is_whitespace) then
            .ok (.error [⟨.endOfFileExpected, st.line_number, st.col_number⟩])
          else .ok (.ok v)

/-! ## Reader (the on-demand lexer of src/lexical.rs) -/

/-- The state of `Reader` from src/lexical.rs. -/
structure RState where
  chars : List Char
  buffer : List (Except Error Token)
  line : Nat
  col : Nat
  deriving Repr

/-- `Reader::new`. -/
def Reader.new (possible_json : List Char) : RState := ⟨possible_json, [], 1, 1⟩

/-- `Reader::create_error`. -/
def RState.create_error (r : RState) (code : ErrorCode) : Error := ⟨code, r.line, r.col⟩

/-- `Token::try_from_token(&cur).ok_or(self.create_error(ExpectedToken))`. -/
def classifyCur (r : RState) (cur : List Char) : Except Error Token :=
  match Token.try_from_token cur with
  | some t => .ok t
  | none => .error (r.create_error .expectedToken)

/-- The loop of `Reader::read_whitespace` over the character list with the
line and column counters; the catch-all arm of its match is a source
`panic!` (reachable only for exotic Unicode whitespace). -/
def readWsAux : List Char → Nat → Nat → Run (List Char × Nat × Nat)
  | [], line, col => .ok ([], line, col)
  | c :: rest, line, col =>
    if ¬ rustIsWhitespace c then .ok (c :: rest, line, col)
    else if c = '\n' ∨ c = '\r' then readWsAux rest (line + 1) 1
    else if c = ' ' ∨ c = '\t' then readWsAux rest line (col + 1)
    else .panicked "is not a whitespace"

/-- `Reader::read_whitespace`. -/
def read_whitespace (r : RState) : Run RState :=
  match readWsAux r.chars r.line r.col with
  | .panicked m => .panicked m
  | .fuelOut => .fuelOut
  | .ok (cs, l, c) => .ok { r with chars := cs, line := l, col := c }

/-- The character loop of `Reader::read_in`, with the in-quotes flag and
in-progress token explicit.  Returns the state together with the final flag
and pending token.  The `col` increment for the consumed character happens
after the arm, and the loop stops as soon as the buffer is full.  The
`fuel` counter only makes the recursion structural; every iteration
consumes at least one character, so `read_in` supplies one unit per
character and the counter never runs out. -/
def readInLoop (fuel num_tokens : Nat) (inQ : Bool) (cur : List Char) (r : RState) :
    Run (RState × Bool × List Char) :=
  match fuel with
  | 0 => .fuelOut
  | f + 1 =>
    match r.chars with
    | [] => .ok (r, inQ, cur)
    | c :: rest =>
      let r0 : RState := { r with chars := rest }
      if c = '"' then
        let r2 : RState := { r0 with col := r0.col + 1 }
        if r2.buffer.length ≥ num_tokens then .ok (r2, !inQ, cur ++ ['"'])
        else readInLoop f num_tokens (!inQ) (cur ++ ['"']) r2
      else if isPunct c ∧ ¬inQ then
        let r1 : RState :=
          if cur = [] then { r0 with buffer := r0.buffer ++ [.ok (.punctuation c)] }
          else { r0 with buffer := r0.buffer ++ [classifyCur r cur, .ok (.punctuation c)] }
        let r2 : RState := { r1 with col := r1.col + 1 }
        if r2.buffer.length ≥ num_tokens then .ok (r2, inQ, [])
        else readInLoop f num_tokens inQ [] r2
      else if rustIsWhitespace c ∧ ¬inQ then
        let b1 := if cur = [] then r0.buffer else r0.buffer ++ [classifyCur r cur]
        match readWsAux rest r.line r.col with
        | .panicked m => .panicked m
        | .fuelOut => .fuelOut
        | .ok (cs2, l2, c2) =>
          let r2 : RState := ⟨cs2, b1, l2, c2 + 1⟩
          if r2.buffer.length ≥ num_tokens then .ok (r2, inQ, [])
          else readInLoop f num_tokens inQ [] r2
      else
        let r2 : RState := { r0 with col := r0.col + 1 }
        if r2.buffer.length ≥ num_tokens then .ok (r2, inQ, cur ++ [c])
        else readInLoop f num_tokens inQ (cur ++ [c]) r2

/-- `Reader::read_in`: top up the buffer to `num_tokens` classified results;
the trailing `assert!`s are modelled as `panicked`. -/
def read_in (num_tokens : Nat) (r : RState) : Run RState :=
  if r.buffer.length ≥ num_tokens then .ok r
  else
    match readInLoop (r.chars.length + 1) num_tokens false [] r with
    | .panicked m => .panicked m
    | .fuelOut => .fuelOut
    | .ok (r1, _, cur) =>
      if ¬(r1.buffer.isEmpty ∨ r1.buffer.length - 1 ≤ num_tokens) then
        .panicked "assertion failed in read_in"
      else if cur ≠ [] then
        if r1.buffer.length < num_tokens then
          .ok { r1 with buffer := r1.buffer ++ [classifyCur r1 cur] }
        else .panicked "All required tokens must not have been parsed"
      else .ok r1

/-- `Reader::next`. -/
def Reader.next (num_tokens : Nat) (r : RState) : Run (List (Except Error Token) × RState) :=
  match read_in num_tokens r with
  | .panicked m => .panicked m
  | .fuelOut => .fuelOut
  | .ok r1 =>
    let k := min r1.buffer.length num_tokens
    .ok (r1.buffer.take k, { r1 with buffer := r1.buffer.drop k })

/-- `Reader::peek`. -/
def Reader.peek (num_tokens : Nat) (r : RState) : Run (List (Except Error Token) × RState) :=
  match read_in num_tokens r with
  | .panicked m => .panicked m
  | .fuelOut => .fuelOut
  | .ok r1 =>
    let k := min r1.buffer.length num_tokens
    .ok (r1.buffer.take k, r1)

/-! ## Lemmas about the batch tokenizer -/

/-- The lexical diagnostics of an input (the error component of
`Token::try_from_json`). -/
def lexicalErrors (json : List Char) : List Error :=
  (tryFromJsonAux (tokenize_into_strings json) 1 1).2

theorem tryFromJsonAux_errors_lb (ts : List (List Char)) : ∀ l c,
    ∀ e ∈ (tryFromJsonAux ts l c).2, l ≤ e.line ∧ e.code = .expectedToken := by
  induction ts with
  | nil => intro l c; simp [tryFromJsonAux]
  | cons t rest ih =>
    intro l c e he
    simp only [tryFromJsonAux] at he
    rcases h : Token.try_from_token t with _ | tok <;> rw [h] at he
    · simp only [List.mem_cons] at he
      rcases he with he | he
      · subst he
        constructor
        · by_cases hnl : t = ['\n'] <;> simp [hnl]
        · rfl
      · have := ih _ _ e he
        refine ⟨le_trans ?_ this.1, this.2⟩
        by_cases hnl : t = ['\n'] <;> simp [hnl]
    · have := ih _ _ e he
      refine ⟨le_trans ?_ this.1, this.2⟩
      by_cases hnl : t = ['\n'] <;> simp [hnl]

theorem tryFromJsonAux_errors_sorted (ts : List (List Char)) : ∀ l c,
    ((tryFromJsonAux ts l c).2).Pairwise (fun a b => a.line ≤ b.line) := by
  induction ts with
  | nil => intro l c; simp [tryFromJsonAux]
  | cons t rest ih =>
    intro l c
    simp only [tryFromJsonAux]
    rcases h : Token.try_from_token t with _ | tok <;> dsimp only
    · refine List.Pairwise.cons ?_ (ih _ _)
      intro e he
      exact (tryFromJsonAux_errors_lb rest _ _ e he).1
    · exact ih _ _

/-- C5, amended.  When lexical classification fails anywhere in the input,
`parse` returns exactly the lexical diagnostics — all `ExpectedToken`, in
left-to-right scan order (nondecreasing lines) — and never runs the
grammar, so no grammar diagnostics are merged in; grammar diagnostics can
appear only when the whole input lexes cleanly (the `?` on
`Token::try_from_json` makes a lexical failure fatal to grammar parsing,
contrary to the original claim). -/
theorem c5_lexical_errors_returned_alone (json : List Char) (errs : List Error)
    (h : Token.try_from_json json = .error errs) :
    parse json = .ok (.error errs) ∧ errs ≠ [] ∧
    (∀ e ∈ errs, e.code = .expectedToken) ∧
    errs.Pairwise (fun a b => a.line ≤ b.line) := by
  have herrs : errs = lexicalErrors json ∧ errs ≠ [] := by
    unfold Token.try_from_json at h
    rw [lexicalErrors.eq_def]
    generalize hR : tryFromJsonAux (tokenize_into_strings json) 1 1 = R at h ⊢
    obtain ⟨toks, errors⟩ := R
    dsimp only at h
    by_cases hne : errors = []
    · subst hne
      simp at h
    · rw [if_pos hne] at h
      injection h with h'
      exact ⟨h'.symm, h' ▸ hne⟩
  refine ⟨?_, herrs.2, ?_, ?_⟩
  · simp only [parse, h]
  · intro e he
    rw [herrs.1] at he
    exact (tryFromJsonAux_errors_lb _ 1 1 e he).2
  · rw [herrs.1]
    exact tryFromJsonAux_errors_sorted _ 1 1

/-- Witness for `c5_lexical_errors_returned_alone` at the input
`this garbage`, whose two spans both fail classification. -/
theorem c5_witness :
    parse "this garbage".toList =
      .ok (.error [⟨.expectedToken, 1, 1⟩, ⟨.expectedToken, 1, 6⟩]) ∧
    ([⟨.expectedToken, 1, 1⟩, ⟨.expectedToken, 1, 6⟩] : List Error) ≠ [] := by
  have h := c5_lexical_errors_returned_alone "this garbage".toList
    [⟨.expectedToken, 1, 1⟩, ⟨.expectedToken, 1, 6⟩] rfl
  exact ⟨h.1, h.2.1⟩

theorem tryFromJsonAux_errors_shift (ts : List (List Char)) : ∀ (l c dl dc : Nat),
    (tryFromJsonAux ts (l + dl) (c + dc)).2
      = ((tryFromJsonAux ts l c).2).map
          (fun e => if e.line = l then ⟨e.code, e.line + dl, e.col + dc⟩
                    else ⟨e.code, e.line + dl, e.col⟩) := by
  induction ts with
  | nil => intro l c dl dc; simp [tryFromJsonAux]
  | cons t rest ih =>
    intro l c dl dc
    simp only [tryFromJsonAux]
    rcases h : Token.try_from_token t with _ | tok <;> dsimp only
    · by_cases hnl : t = ['\n']
      · rw [hnl] at h
        exact absurd h (by decide)
      · simp only [hnl, if_false, List.map_cons]
        refine congrArg₂ List.cons ?_ ?_
        · simp
        · have hcomm : c + dc + rustLen t = c + rustLen t + dc := by omega
          rw [hcomm]
          exact ih l (c + rustLen t) dl dc
    · by_cases hnl : t = ['\n']
      · simp only [hnl, if_true]
        have h1 : l + dl + 1 = (l + 1) + dl := by omega
        have h2 : (1 : Nat) + rustLen ['\n'] = 2 + 0 := by simp [rustLen, charUtf8Size]
        rw [h1, h2, ih (l + 1) 2 dl 0]
        refine List.map_congr_left ?_
        intro e he
        have hlb := (tryFromJsonAux_errors_lb rest (l + 1) 2 e he).1
        have hne : ¬ e.line = l := by omega
        by_cases h3 : e.line = l + 1 <;> simp [h3, hne]
      · simp only [hnl, if_false]
        have : c + dc + rustLen t = c + rustLen t + dc := by omega
        rw [this]
        exact ih l (c + rustLen t) dl dc

theorem tokenize_cons_newline (s : List Char) :
    tokenize_into_strings ('\n' :: s) = ['\n'] :: tokenize_into_strings s := rfl

theorem tokenize_cons_cr (s : List Char) :
    tokenize_into_strings ('\r' :: s) = ['\r'] :: tokenize_into_strings s := rfl

/-- C6, amended.  In the position tracking of the batch tokenizer feeding
`parse`, a `"\n"` token increments the line and resets the column to 1,
but its own length is then added like any other token, so diagnostics for
first-line units of the remaining input appear at line 2 with their column
shifted by one (a unit immediately after the newline lands at column 2,
not 1); a `"\r"` performs no line/column reset at all — it is itself
reported as an unrecognized `ExpectedToken` unit at its own position, and
only shifts following first-line columns by its length.  Other tokens
advance the column by their UTF-8 byte length. -/
theorem c6_newline_and_cr_position_shifts :
    (∀ s, lexicalErrors ('\n' :: s)
        = (lexicalErrors s).map (fun e =>
            if e.line = 1 then ⟨e.code, e.line + 1, e.col + 1⟩
            else ⟨e.code, e.line + 1, e.col⟩)) ∧
    (∀ s, lexicalErrors ('\r' :: s)
        = ⟨.expectedToken, 1, 1⟩ :: (lexicalErrors s).map (fun e =>
            if e.line = 1 then ⟨e.code, e.line, e.col + 1⟩
            else ⟨e.code, e.line, e.col⟩)) := by
  constructor
  · intro s
    have hstep : lexicalErrors ('\n' :: s)
        = (tryFromJsonAux (tokenize_into_strings s) (1 + 1) (1 + 1)).2 := rfl
    rw [hstep]
    exact tryFromJsonAux_errors_shift _ 1 1 1 1
  · intro s
    have hstep : lexicalErrors ('\r' :: s)
        = ⟨.expectedToken, 1, 1⟩ ::
            (tryFromJsonAux (tokenize_into_strings s) (1 + 0) (1 + 1)).2 := rfl
    rw [hstep, tryFromJsonAux_errors_shift _ 1 1 0 1]
    simp [lexicalErrors]

theorem takeSpaces_spec (cs : List Char) :
    (takeSpaces cs).1 + (takeSpaces cs).2.length = cs.length := by
  induction cs with
  | nil => simp [takeSpaces]
  | cons c cs ih =>
    by_cases h : c = ' ' ∨ c = '\t'
    · simp only [takeSpaces, h, if_true]
      simp at ih ⊢
      omega
    · simp [takeSpaces, h]

/-- Character conservation of the raw tokenizer: the emitted strings'
lengths sum to the pending token's length plus the input length (every
consumed character contributes exactly one character to some emitted
string). -/
theorem tokenizeAux_length_sum : ∀ (fuel : Nat) (cs : List Char) (inQ : Bool) (cur : List Char),
    cs.length + 1 ≤ fuel →
    ((tokenizeAux fuel cs inQ cur).map List.length).sum = cur.length + cs.length := by
  intro fuel
  induction fuel with
  | zero => intro cs inQ cur h; omega
  | succ f ih =>
    intro cs inQ cur h
    match cs with
    | [] =>
      by_cases hc : cur = [] <;> simp [tokenizeAux, hc]
    | c :: cs' =>
      simp only [tokenizeAux]
      by_cases h1 : c = '"'
      · rw [if_pos h1]
        have := ih cs' (!inQ) (cur ++ ['"']) (by simp at h; omega)
        simp at this ⊢
        omega
      · rw [if_neg h1]
        by_cases h2 : c = '\\' ∧ inQ = true
        · rw [if_pos h2]
          match cs' with
          | [] =>
            have := ih [] inQ (cur ++ ['\\']) (by simp at h ⊢; omega)
            simp at this ⊢
            omega
          | d :: ds =>
            have := ih ds inQ (cur ++ ['\\', d]) (by simp at h; omega)
            simp at this ⊢
            omega
        · rw [if_neg h2]
          by_cases h3 : ¬inQ = true ∧ (isPunct c = true ∨ c = '\n' ∨ c = '\r')
          · rw [if_pos h3]
            have := ih cs' false [] (by simp at h; omega)
            by_cases hc : cur = [] <;> simp [hc] at this ⊢ <;> omega
          · rw [if_neg h3]
            by_cases h4 : ¬inQ = true ∧ rustIsWhitespace c = true
            · rw [if_pos h4]
              have hts := takeSpaces_spec cs'
              have htle := takeSpaces_length_le cs'
              have := ih (takeSpaces cs').2 false [] (by simp at h; omega)
              by_cases hc : cur = [] <;> simp [hc] at this ⊢ <;> omega
            · rw [if_neg h4]
              have := ih cs' inQ (cur ++ [c]) (by simp at h; omega)
              simp at this ⊢
              omega

theorem no_newline_head_append (cur : List Char) (x : Char) (xs : List Char)
    (hc : ∀ hd, cur.head? = some hd → hd ≠ '\n') (hx : cur = [] → x ≠ '\n') :
    ∀ hd, (cur ++ x :: xs).head? = some hd → hd ≠ '\n' := by
  intro hd hh
  match cur with
  | [] =>
    simp at hh
    subst hh
    exact hx rfl
  | c0 :: cur' =>
    simp at hh
    subst hh
    exact hc _ rfl

/-- Shape of tokenizer output: every emitted string is nonempty, and a
string beginning with a newline is exactly `"\n"` (newlines are always
their own unit). -/
theorem tokenizeAux_shape : ∀ (fuel : Nat) (cs : List Char) (inQ : Bool) (cur : List Char),
    (inQ = true → cur ≠ []) → (∀ hd, cur.head? = some hd → hd ≠ '\n') →
    ∀ t ∈ tokenizeAux fuel cs inQ cur, t ≠ [] ∧ (t.head? = some '\n' → t = ['\n']) := by
  intro fuel
  induction fuel with
  | zero => intro cs inQ cur _ _ t ht; simp [tokenizeAux] at ht
  | succ f ih =>
    intro cs inQ cur hq hcur t ht
    match cs with
    | [] =>
      by_cases hc : cur = [] <;> simp [tokenizeAux, hc] at ht
      subst ht
      exact ⟨hc, fun hh => absurd rfl (hcur _ hh)⟩
    | c :: cs' =>
      simp only [tokenizeAux] at ht
      by_cases h1 : c = '"'
      · rw [if_pos h1] at ht
        exact ih cs' (!inQ) (cur ++ ['"']) (fun _ => by simp)
          (no_newline_head_append cur '"' [] hcur (fun _ => by decide)) t ht
      · rw [if_neg h1] at ht
        by_cases h2 : c = '\\' ∧ inQ = true
        · rw [if_pos h2] at ht
          match cs' with
          | [] =>
            exact ih [] inQ (cur ++ ['\\']) (fun _ => by simp)
              (no_newline_head_append cur '\\' [] hcur (fun _ => by decide)) t ht
          | d :: ds =>
            exact ih ds inQ (cur ++ ['\\', d]) (fun _ => by simp)
              (no_newline_head_append cur '\\' [d] hcur (fun _ => by decide)) t ht
        · rw [if_neg h2] at ht
          by_cases h3 : ¬inQ = true ∧ (isPunct c = true ∨ c = '\n' ∨ c = '\r')
          · rw [if_pos h3] at ht
            simp only [List.mem_append, List.mem_cons] at ht
            rcases ht with ht | ht | ht
            · by_cases hc : cur = [] <;> simp [hc] at ht
              subst ht
              exact ⟨hc, fun hh => absurd rfl (hcur _ hh)⟩
            · subst ht
              refine ⟨by simp, ?_⟩
              intro hh
              simp at hh
              rw [hh]
            · exact ih cs' false [] (by simp) (by simp) t ht
          · rw [if_neg h3] at ht
            by_cases h4 : ¬inQ = true ∧ rustIsWhitespace c = true
            · rw [if_pos h4] at ht
              simp only [List.mem_append, List.mem_cons] at ht
              rcases ht with ht | ht | ht
              · by_cases hc : cur = [] <;> simp [hc] at ht
                subst ht
                exact ⟨hc, fun hh => absurd rfl (hcur _ hh)⟩
              · subst ht
                refine ⟨by simp [List.replicate_succ], ?_⟩
                intro hh
                simp [List.replicate_succ] at hh
              · exact ih (takeSpaces cs').2 false [] (by simp) (by simp) t ht
            · rw [if_neg h4] at ht
              -- c reached the catch-all; if cur is empty then inQ is false
              -- (the in-quotes invariant forces cur nonempty), and then c is
              -- not a newline (that would have matched the delimiter arm)
              have hx : cur = [] → c ≠ '\n' := by
                intro hce heq
                have hinq : inQ = false := by
                  cases hb : inQ
                  · rfl
                  · exact absurd (hq hb) (by simp [hce])
                exact h3 ⟨by simp [hinq], Or.inr (Or.inl heq)⟩
              exact ih cs' inQ (cur ++ [c]) (fun _ => by simp)
                (no_newline_head_append cur c [] hcur hx) t ht

/-- For tokens the classifier accepts, `Token::len` is the UTF-8 byte
length of the classified string, provided a string headed by a newline is
exactly `"\n"` (which `tokenizeAux_shape` guarantees for tokenizer
output). -/
theorem try_from_token_len (t : List Char) (tok : Token)
    (hnl : t.head? = some '\n' → t = ['\n'])
    (h : Token.try_from_token t = some tok) : tok.len = rustLen t := by
  match t with
  | [] => simp [Token.try_from_token] at h
  | c :: t' =>
    simp only [Token.try_from_token] at h
    split_ifs at h with g1 g2 g3 g4 g5 g6 g7 g8 g9
    · injection h with h2
      subst h2
      simp [Token.len, g1.1]
    · injection h with h2
      subst h2
      rfl
    · injection h with h2
      subst h2
      have ht := hnl (by rw [g3]; rfl)
      rw [ht]
      decide
    · injection h with h2
      subst h2
      rw [g4]
      decide
    · injection h with h2
      subst h2
      rfl
    · injection h with h2
      subst h2
      rfl
    · injection h with h2
      subst h2
      rfl
    · injection h with h2
      subst h2
      rfl
    · injection h with h2
      subst h2
      rfl

theorem rustLen_ascii (t : List Char) (h : ∀ c ∈ t, c.toNat < 128) :
    rustLen t = t.length := by
  induction t with
  | nil => rfl
  | cons c t ih =>
    have hc := h c (by simp)
    have ht := ih (fun d hd => h d (by simp [hd]))
    simp only [rustLen, List.map_cons, List.sum_cons, List.length_cons] at ht ⊢
    rw [charUtf8Size, if_pos hc]
    omega

/-- C8, amended.  `Token::len` reports the UTF-8 byte length
(`String::len`) of the captured text, not a character count: for every
token classified from a tokenizer string the length equals `rustLen` of
that string; the tokenizer conserves characters one-for-one (the emitted
strings' lengths sum to the input length, so each token's string length is
exactly the number of source characters advanced for it); and byte length
coincides with character count exactly on ASCII text, recovering the
original claim there (including the per-variant values: NewLine 1,
Whitespace the run length, Null 4, Punctuation 1). -/
theorem c8_len_is_byte_length_of_advanced_text :
    (∀ (s t : List Char) (tok : Token), t ∈ tokenize_into_strings s →
        Token.try_from_token t = some tok → tok.len = rustLen t) ∧
    (∀ s : List Char, ((tokenize_into_strings s).map List.length).sum = s.length) ∧
    (∀ t : List Char, (∀ c ∈ t, c.toNat < 128) → rustLen t = t.length) := by
  refine ⟨?_, ?_, rustLen_ascii⟩
  · intro s t tok hmem hcls
    have hs := tokenizeAux_shape (s.length + 1) s false [] (by simp) (by simp) t hmem
    exact try_from_token_len t tok hs.2 hcls
  · intro s
    simpa using tokenizeAux_length_sum (s.length + 1) s false [] (le_refl _)

/-- Witness for `c8_len_is_byte_length_of_advanced_text` on the input
`[7]` and its number token `7`. -/
theorem c8_witness :
    (Token.number ['7']).len = rustLen ['7'] ∧
    ((tokenize_into_strings "[7]".toList).map List.length).sum = "[7]".toList.length ∧
    rustLen ['7'] = ['7'].length := by
  refine ⟨?_, c8_len_is_byte_length_of_advanced_text.2.1 "[7]".toList, ?_⟩
  · exact c8_len_is_byte_length_of_advanced_text.1 "[7]".toList ['7'] (.number ['7'])
      (by decide) rfl
  · exact c8_len_is_byte_length_of_advanced_text.2.2 ['7'] (by decide)

/-! ## The resynchronization loop (claim C9) -/

theorem untilLoop_batches (endc : Char) : ∀ (J : List Token) (fuel : Nat) (seen : Bool)
    (rest : List Token) (E : List Error) (l c : Nat),
    (∀ t ∈ J, Token.is_whitespace t = false ∧ t ≠ .punctuation ',' ∧
      t ≠ .punctuation endc ∧ t ≠ .punctuation ':') →
    (rest.head? = none ∨ rest.head? = some (.punctuation ',') ∨
      rest.head? = some (.punctuation endc)) →
    J.length + 1 ≤ fuel →
    ∃ c', parseUntilLoop fuel endc seen ⟨J ++ rest, E, l, c⟩
      = .ok () ⟨rest,
          if seen ∨ J ≠ [] then E ++ [⟨.expectedCommaOrEndWhileParsing endc, l, c'⟩] else E,
          l, c'⟩ := by
  intro J
  induction J with
  | nil =>
    intro fuel seen rest E l c _ hrest hfuel
    match fuel with
    | f + 1 =>
      refine ⟨c, ?_⟩
      rcases hrest with h0 | h0 | h0
      · have hre : rest = [] := by
          cases rest
          · rfl
          · simp at h0
        subst hre
        by_cases hs : seen = true <;>
          simp [parseUntilLoop, parse_whitespace, parseWsAux, hs, PState.pushError]
      · cases rest with
        | nil => simp at h0
        | cons t0 r' =>
          simp only [List.head?_cons, Option.some.injEq] at h0
          subst h0
          by_cases hs : seen = true <;>
            simp [parseUntilLoop, parse_whitespace, parseWsAux, hs, PState.pushError]
      · cases rest with
        | nil => simp at h0
        | cons t0 r' =>
          simp only [List.head?_cons, Option.some.injEq] at h0
          subst h0
          by_cases hpc : endc = ','
          · subst hpc
            by_cases hs : seen = true <;>
              simp [parseUntilLoop, parse_whitespace, parseWsAux, hs, PState.pushError]
          · by_cases hs : seen = true <;>
              simp [parseUntilLoop, parse_whitespace, parseWsAux, hs, hpc, PState.pushError]
  | cons t J' ih =>
    intro fuel seen rest E l c hJ hrest hfuel
    match fuel with
    | f + 1 =>
      have ht := hJ t (by simp)
      have hJ' : ∀ u ∈ J', Token.is_whitespace u = false ∧ u ≠ .punctuation ',' ∧
          u ≠ .punctuation endc ∧ u ≠ .punctuation ':' := fun u hu => hJ u (by simp [hu])
      have hfuel' : J'.length + 1 ≤ f := by simp at hfuel; omega
      match t with
      | .newLine => simp [Token.is_whitespace] at ht
      | .whitespace _ => simp [Token.is_whitespace] at ht
      | .null =>
        obtain ⟨c', hc'⟩ := ih f true rest E l (c + Token.null.len) hJ' hrest hfuel'
        refine ⟨c', ?_⟩
        simp only [parseUntilLoop, parse_whitespace, parseWsAux, List.cons_append,
          List.append_eq]
        rw [if_neg (by simp : ¬ Token.null = Token.punctuation ',')]
        rw [hc']
        simp
      | .bool b =>
        obtain ⟨c', hc'⟩ := ih f true rest E l (c + (Token.bool b).len) hJ' hrest hfuel'
        refine ⟨c', ?_⟩
        simp only [parseUntilLoop, parse_whitespace, parseWsAux, List.cons_append,
          List.append_eq]
        rw [if_neg (by simp : ¬ Token.bool b = Token.punctuation ',')]
        rw [hc']
        simp
      | .string sv =>
        obtain ⟨c', hc'⟩ := ih f true rest E l (c + (Token.string sv).len) hJ' hrest hfuel'
        refine ⟨c', ?_⟩
        simp only [parseUntilLoop, parse_whitespace, parseWsAux, List.cons_append,
          List.append_eq]
        rw [if_neg (by simp : ¬ Token.string sv = Token.punctuation ',')]
        rw [hc']
        simp
      | .number nv =>
        obtain ⟨c', hc'⟩ := ih f true rest E l (c + (Token.number nv).len) hJ' hrest hfuel'
        refine ⟨c', ?_⟩
        simp only [parseUntilLoop, parse_whitespace, parseWsAux, List.cons_append,
          List.append_eq]
        rw [if_neg (by simp : ¬ Token.number nv = Token.punctuation ',')]
        rw [hc']
        simp
      | .punctuation pc =>
        have hne1 : ¬ pc = ',' := fun hx => ht.2.1 (by rw [hx])
        have hne2 : ¬ pc = endc := fun hx => ht.2.2.1 (by rw [hx])
        have hne3 : ¬ pc = ':' := fun hx => ht.2.2.2 (by rw [hx])
        obtain ⟨c', hc'⟩ := ih f true rest E l (c + (Token.punctuation pc).len) hJ' hrest hfuel'
        refine ⟨c', ?_⟩
        simp only [parseUntilLoop, parse_whitespace, parseWsAux, List.cons_append,
          List.append_eq]
        rw [if_neg (by simp [hne1] : ¬ Token.punctuation pc = Token.punctuation ',')]
        rw [if_neg hne2, if_neg hne3]
        rw [hc']
        simp

/-- C9, amended.  Each maximal run of skipped junk units containing no
bare colon produces exactly one `ExpectedCommaOrEndWhileParsing(delimiter)`
diagnostic for the whole run (never one per unit), and an empty run
produces none; however a colon-led group (a bare `:` and the value parsed
and discarded after it) is skipped without setting the junk flag and so
contributes no diagnostic at all (see the counterexample), so "never zero
when at least one junk unit was skipped" holds only for runs of units
other than such colon groups. -/
theorem c9_one_diagnostic_per_junk_run :
    (∀ (fuel : Nat) (endc : Char) (J rest : List Token) (E : List Error) (l c : Nat),
      J ≠ [] →
      (∀ t ∈ J, Token.is_whitespace t = false ∧ t ≠ .punctuation ',' ∧
        t ≠ .punctuation endc ∧ t ≠ .punctuation ':') →
      (rest.head? = none ∨ rest.head? = some (.punctuation ',') ∨
        rest.head? = some (.punctuation endc)) →
      J.length + 1 ≤ fuel →
      ∃ c', parse_until_comma_or_end fuel endc ⟨J ++ rest, E, l, c⟩
        = .ok () ⟨rest, E ++ [⟨.expectedCommaOrEndWhileParsing endc, l, c'⟩], l, c'⟩) ∧
    (∀ (fuel : Nat) (endc : Char) (rest : List Token) (E : List Error) (l c : Nat),
      (rest.head? = none ∨ rest.head? = some (.punctuation ',') ∨
        rest.head? = some (.punctuation endc)) →
      1 ≤ fuel →
      parse_until_comma_or_end fuel endc ⟨rest, E, l, c⟩ = .ok () ⟨rest, E, l, c⟩) := by
  constructor
  · intro fuel endc J rest E l c hne hJ hrest hfuel
    obtain ⟨c', hc'⟩ := untilLoop_batches endc J fuel false rest E l c hJ hrest hfuel
    refine ⟨c', ?_⟩
    rw [parse_until_comma_or_end, hc']
    simp [hne]
  · intro fuel endc rest E l c hrest hfuel
    match fuel with
    | f + 1 =>
      rw [parse_until_comma_or_end]
      rcases hrest with h0 | h0 | h0
      · have hre : rest = [] := by
          cases rest
          · rfl
          · simp at h0
        subst hre
        simp [parseUntilLoop, parse_whitespace, parseWsAux]
      · cases rest with
        | nil => simp at h0
        | cons t0 r' =>
          simp only [List.head?_cons, Option.some.injEq] at h0
          subst h0
          simp [parseUntilLoop, parse_whitespace, parseWsAux]
      · cases rest with
        | nil => simp at h0
        | cons t0 r' =>
          simp only [List.head?_cons, Option.some.injEq] at h0
          subst h0
          by_cases hpc : endc = ','
          · subst hpc
            simp [parseUntilLoop, parse_whitespace, parseWsAux]
          · simp [parseUntilLoop, parse_whitespace, parseWsAux, hpc]

/-- Witness for `c9_one_diagnostic_per_junk_run`: a junk run of one `null`
before the closing bracket yields exactly one batched diagnostic, and the
empty run yields none. -/
theorem c9_witness :
    (∃ c', parse_until_comma_or_end 2 ']' ⟨[.null, .punctuation ']'], [], 1, 1⟩
      = .ok () ⟨[.punctuation ']'], [⟨.expectedCommaOrEndWhileParsing ']', 1, c'⟩], 1, c'⟩) ∧
    parse_until_comma_or_end 1 ']' ⟨[.punctuation ']'], [], 1, 1⟩
      = .ok () ⟨[.punctuation ']'], [], 1, 1⟩ := by
  constructor
  · exact c9_one_diagnostic_per_junk_run.1 2 ']' [.null] [.punctuation ']'] [] 1 1
      (by simp) (by decide) (by simp) (by simp)
  · exact c9_one_diagnostic_per_junk_run.2 1 ']' [.punctuation ']'] [] 1 1 (by simp) (by simp)

/-! ## Escape atomicity in the batch tokenizer (claim C7) -/

theorem tokenizeAux_quote (n : Nat) (xs cur : List Char) (inQ : Bool) :
    tokenizeAux (n + 1) ('"' :: xs) inQ cur = tokenizeAux n xs (!inQ) (cur ++ ['"']) := rfl

theorem tokenizeAux_backslash (n : Nat) (d : Char) (xs cur : List Char) :
    tokenizeAux (n + 1) ('\\' :: d :: xs) true cur = tokenizeAux n xs true (cur ++ ['\\', d]) := rfl

/-- Inside string-capture mode every character other than a quote or a
backslash is appended to the in-progress token. -/
theorem tokenizeAux_in_quotes (a : List Char) : ∀ (fuel : Nat) (cs cur : List Char),
    (∀ c ∈ a, c ≠ '"' ∧ c ≠ '\\') →
    tokenizeAux (a.length + fuel) (a ++ cs) true cur = tokenizeAux fuel cs true (cur ++ a) := by
  induction a with
  | nil => simp
  | cons c a' ih =>
    intro fuel cs cur h
    have hc := h c (by simp)
    simp only [List.length_cons, List.cons_append]
    rw [show a'.length + 1 + fuel = (a'.length + fuel) + 1 from by omega]
    simp only [tokenizeAux]
    rw [if_neg hc.1, if_neg (by simp [hc.2]), if_neg (by simp), if_neg (by simp)]
    rw [ih fuel cs (cur ++ [c]) (fun d hd => h d (by simp [hd]))]
    simp

/-- C7, amended.  In the batch tokenizer used by `parse`
(`tokenize_into_strings`), a backslash immediately followed by a double
quote inside string-capture mode is consumed atomically and does not
toggle the mode: a whole quoted span containing an escaped quote comes out
as a single string.  The claim's "every lexing entry point" part fails:
`Reader::read_in` has no backslash handling at all, and there the escaped
quote does toggle the mode (see the counterexample). -/
theorem c7_batch_tokenizer_escape_atomic (a b : List Char)
    (ha : ∀ c ∈ a, c ≠ '"' ∧ c ≠ '\\') (hb : ∀ c ∈ b, c ≠ '"' ∧ c ≠ '\\') :
    tokenize_into_strings ('"' :: (a ++ '\\' :: ('"' :: (b ++ ['"']))))
      = ['"' :: (a ++ '\\' :: ('"' :: (b ++ ['"'])))] := by
  unfold tokenize_into_strings
  rw [show ('"' :: (a ++ '\\' :: ('"' :: (b ++ ['"'])))).length + 1
      = (a.length + (b.length + 4)) + 1 from by simp; omega]
  rw [tokenizeAux_quote]
  simp only [Bool.not_false, Bool.not_true, List.nil_append]
  rw [tokenizeAux_in_quotes a _ _ _ ha]
  rw [show b.length + 4 = (b.length + 3) + 1 from by omega]
  rw [tokenizeAux_backslash]
  rw [tokenizeAux_in_quotes b 3 ['"'] _ hb]
  rw [show (3 : Nat) = 2 + 1 from rfl]
  rw [tokenizeAux_quote]
  simp only [Bool.not_false, Bool.not_true, List.nil_append]
  simp only [tokenizeAux]
  rw [if_neg (by simp)]
  simp

/-- Witness for `c7_batch_tokenizer_escape_atomic` with content `a` and
`b` around the escaped quote. -/
theorem c7_witness :
    tokenize_into_strings ('"' :: (['a'] ++ '\\' :: ('"' :: (['b'] ++ ['"']))))
      = ['"' :: (['a'] ++ '\\' :: ('"' :: (['b'] ++ ['"'])))] :=
  c7_batch_tokenizer_escape_atomic ['a'] ['b'] (by decide) (by decide)

/-! ## The top-level Ok/Err policy (claims C3 and C4) -/

/-- The diagnostics accumulated over a full run of `Parser::parse`,
including the top-level `EndOfFileExpected` check: the lexical errors if
tokenization failed, otherwise the parser's error list if nonempty,
otherwise the singleton `EndOfFileExpected` when no root value was
produced or non-whitespace tokens remain, otherwise the empty list;
`none` when the run does not return (panic or fuel exhaustion). -/
def accumulatedDiagnostics (json : List Char) : Option (List Error) :=
  match Token.try_from_json json with
  | .error errs => some errs
  | .ok tokens =>
    match parse_value (parseFuel tokens) ⟨tokens, [], 1, 1⟩ with
    | .panicked _ => none
    | .fuelOut => none
    | .ok value_opt st =>
      if st.errors ≠ [] then some st.errors
      else
        match value_opt with
        | none => some [⟨.endOfFileExpected, st.line_number, st.col_number⟩]
        | some _ =>
          if ¬(st.tokens.all Token.is_whitespace) then
            some [⟨.endOfFileExpected, st.line_number, st.col_number⟩]
          else some []

/-- C3, amended.  For every input on which `parse` returns normally (no
panic — see the counterexample — and no fuel exhaustion of the model's
counter): the call returns `Ok` exactly when the accumulated diagnostic
list (counting the top-level `EndOfFileExpected`) is empty, and every
`Err` carries precisely the full accumulated list, which is nonempty; an
`Ok` carries exactly one `Value` by its type. -/
theorem c3_ok_iff_no_diagnostics (json : List Char) :
    ((∃ v, parse json = .ok (.ok v)) ↔ accumulatedDiagnostics json = some []) ∧
    (∀ l, parse json = .ok (.error l) → accumulatedDiagnostics json = some l ∧ l ≠ []) := by
  unfold parse accumulatedDiagnostics
  generalize hlex : Token.try_from_json json = L
  cases L with
  | error errs =>
    have hne : errs ≠ [] := by
      unfold Token.try_from_json at hlex
      generalize hR : tryFromJsonAux (tokenize_into_strings json) 1 1 = R at hlex
      obtain ⟨toks, errors⟩ := R
      dsimp only at hlex
      by_cases hnee : errors = []
      · subst hnee
        simp at hlex
      · rw [if_pos hnee] at hlex
        injection hlex with h'
        exact h' ▸ hnee
    dsimp only
    constructor
    · constructor
      · rintro ⟨v, hv⟩
        simp at hv
      · intro h
        injection h with h'
        exact absurd h' hne
    · intro l hl
      simp only [Run.ok.injEq, Except.error.injEq] at hl
      subst hl
      exact ⟨rfl, hne⟩
  | ok tokens =>
    dsimp only
    generalize hrun : parse_value (parseFuel tokens) ⟨tokens, [], 1, 1⟩ = R
    cases R with
    | panicked m =>
      refine ⟨⟨?_, ?_⟩, ?_⟩
      · rintro ⟨v, hv⟩; simp at hv
      · intro h; simp at h
      · intro l hl; simp at hl
    | fuelOut =>
      refine ⟨⟨?_, ?_⟩, ?_⟩
      · rintro ⟨v, hv⟩; simp at hv
      · intro h; simp at h
      · intro l hl; simp at hl
    | ok value_opt st =>
      dsimp only
      by_cases herr : st.errors = []
      · rw [if_neg (show ¬ st.errors ≠ [] from by simp [herr]),
          if_neg (show ¬ st.errors ≠ [] from by simp [herr])]
        match value_opt with
        | none =>
          dsimp only
          refine ⟨⟨?_, ?_⟩, ?_⟩
          · rintro ⟨v, hv⟩; simp at hv
          · intro h; simp at h
          · intro l hl
            simp only [Run.ok.injEq, Except.error.injEq] at hl
            subst hl
            exact ⟨rfl, by simp⟩
        | some v =>
          dsimp only
          by_cases hws : st.tokens.all Token.is_whitespace = true
          · rw [if_neg (show ¬¬(st.tokens.all Token.is_whitespace = true) from fun hc => hc hws),
              if_neg (show ¬¬(st.tokens.all Token.is_whitespace = true) from fun hc => hc hws)]
            refine ⟨⟨?_, ?_⟩, ?_⟩
            · intro; rfl
            · intro; exact ⟨v, rfl⟩
            · intro l hl; simp at hl
          · rw [if_pos hws, if_pos hws]
            refine ⟨⟨?_, ?_⟩, ?_⟩
            · rintro ⟨w, hw⟩; simp at hw
            · intro h; simp at h
            · intro l hl
              simp only [Run.ok.injEq, Except.error.injEq] at hl
              subst hl
              exact ⟨rfl, by simp⟩
      · rw [if_pos (show st.errors ≠ [] from herr),
          if_pos (show st.errors ≠ [] from herr)]
        refine ⟨⟨?_, ?_⟩, ?_⟩
        · rintro ⟨v, hv⟩; simp at hv
        · intro h
          injection h with h'
          exact absurd h' herr
        · intro l hl
          simp only [Run.ok.injEq, Except.error.injEq] at hl
          subst hl
          exact ⟨rfl, herr⟩

/-- Witness for `c3_ok_iff_no_diagnostics`: the empty input returns `Err`
with the one accumulated `EndOfFileWhileParsingValue` diagnostic. -/
theorem c3_witness :
    accumulatedDiagnostics [] = some [⟨.endOfFileWhileParsingValue, 1, 1⟩] ∧
    ([⟨.endOfFileWhileParsingValue, 1, 1⟩] : List Error) ≠ [] :=
  (c3_ok_iff_no_diagnostics []).2 [⟨.endOfFileWhileParsingValue, 1, 1⟩] rfl

/-- No error in the list carries the top-level-only `EndOfFileExpected`
code. -/
def noEOFE (l : List Error) : Prop := ∀ e ∈ l, e.code ≠ ErrorCode.endOfFileExpected

theorem parse_whitespace_errors (st : PState) : (parse_whitespace st).errors = st.errors := by
  unfold parse_whitespace
  obtain ⟨t, l, c⟩ := parseWsAux st.tokens st.line_number st.col_number
  rfl

theorem noEOFE_push (st : PState) (code : ErrorCode) (h : noEOFE st.errors)
    (hc : code ≠ .endOfFileExpected) : noEOFE (st.pushError code).errors := by
  intro e he
  simp only [PState.pushError, List.mem_append, List.mem_singleton] at he
  rcases he with he | he
  · exact h e he
  · subst he
    exact hc

theorem noEOFE_parse_string (s : List Char) (st : PState) (r : Option Value) (st' : PState)
    (h : parse_string s st = .ok r st') (hst : noEOFE st.errors) : noEOFE st'.errors := by
  unfold parse_string at h
  split at h
  · exact absurd h (by simp)
  · split at h
    · dsimp only at h
      injection h with h1 h2
      subst h2
      split
      · exact noEOFE_push _ _ hst (by simp)
      · exact hst
    · exact absurd h (by simp)

theorem noEOFE_parse_number (s : List Char) (st : PState) (r : Option Value) (st' : PState)
    (h : parse_number s st = .ok r st') (hst : noEOFE st.errors) : noEOFE st'.errors := by
  unfold parse_number at h
  split at h
  · exact absurd h (by simp)
  · dsimp only at h
    injection h with h1 h2
    subst h2
    split
    · exact hst
    · exact noEOFE_push _ _ hst (by simp)

theorem noEOFE_parse_sequence_separator (endc : Char) (st : PState) (b : Bool) (st' : PState)
    (h : parse_sequence_separator endc st = .ok b st') (hst : noEOFE st.errors) :
    noEOFE st'.errors := by
  have hpw : noEOFE (parse_whitespace st).errors := by
    rw [parse_whitespace_errors]
    exact hst
  simp only [parse_sequence_separator] at h
  split at h
  · injection h with h1 h2
    subst h2
    exact noEOFE_push _ _ hpw (by simp)
  · injection h with h1 h2
    subst h2
    exact noEOFE_push _ _ hpw (by simp)
  · split at h
    · injection h with h1 h2
      subst h2
      exact noEOFE_push _ _ hpw (by simp)
    · injection h with h1 h2
      subst h2
      exact hpw
  · injection h with h1 h2
    subst h2
    exact hpw
  · split at h
    · injection h with h1 h2
      subst h2
      exact hpw
    · injection h with h1 h2
      subst h2
      exact noEOFE_push _ _ hpw (by simp)
  · exact absurd h (by simp)
  · injection h with h1 h2
    subst h2
    exact noEOFE_push _ _ hpw (by simp)

/-- The parser never records `EndOfFileExpected` in its accumulated error
list: every `pushError` site of every recursive routine uses another code
(the top level alone creates `EndOfFileExpected`, as a fresh singleton). -/
theorem parser_noEOFE : ∀ fuel : Nat,
    (∀ st r st', parse_value fuel st = .ok r st' → noEOFE st.errors → noEOFE st'.errors) ∧
    (∀ st r st', parse_array fuel st = .ok r st' → noEOFE st.errors → noEOFE st'.errors) ∧
    (∀ st r st', parse_object fuel st = .ok r st' → noEOFE st.errors → noEOFE st'.errors) ∧
    (∀ st r st', parse_array_elements fuel st = .ok r st' → noEOFE st.errors → noEOFE st'.errors) ∧
    (∀ acc st r st', parseArrayElementsLoop fuel acc st = .ok r st' →
      noEOFE st.errors → noEOFE st'.errors) ∧
    (∀ st r st', parse_object_members fuel st = .ok r st' → noEOFE st.errors → noEOFE st'.errors) ∧
    (∀ acc st r st', parseObjectMembersLoop fuel acc st = .ok r st' →
      noEOFE st.errors → noEOFE st'.errors) ∧
    (∀ endc seen st r st', parseUntilLoop fuel endc seen st = .ok r st' →
      noEOFE st.errors → noEOFE st'.errors) := by
  intro fuel
  induction fuel with
  | zero =>
    refine ⟨?_, ?_, ?_, ?_, ?_, ?_, ?_, ?_⟩ <;> intros _ _ _ <;>
      first
      | (intro h; exact absurd h (by simp [parse_value, parse_array, parse_object,
          parse_array_elements, parseArrayElementsLoop, parse_object_members,
          parseObjectMembersLoop, parseUntilLoop]))
      | (intro _ h; exact absurd h (by simp [parse_value, parse_array, parse_object,
          parse_array_elements, parseArrayElementsLoop, parse_object_members,
          parseObjectMembersLoop, parseUntilLoop]))
      | (intro _ _ h; exact absurd h (by simp [parse_value, parse_array, parse_object,
          parse_array_elements, parseArrayElementsLoop, parse_object_members,
          parseObjectMembersLoop, parseUntilLoop]))
  | succ f ih =>
    obtain ⟨ihv, iha, iho, ihae, ihal, ihom, ihol, ihu⟩ := ih
    refine ⟨?_, ?_, ?_, ?_, ?_, ?_, ?_, ?_⟩
    -- parse_value
    · intro st r st' h hst
      have hpw : noEOFE (parse_whitespace st).errors := by
        rw [parse_whitespace_errors]; exact hst
      simp only [parse_value] at h
      split at h
      · injection h with h1 h2
        subst h2
        exact noEOFE_push _ _ hpw (by simp)
      · injection h with h1 h2
        subst h2
        exact hpw
      · split at h
        · injection h with h1 h2
          subst h2
          exact hpw
        · split at h
          · injection h with h1 h2
            subst h2
            exact hpw
          · exact absurd h (by simp)
      · exact noEOFE_parse_string _ _ _ _ h hpw
      · exact noEOFE_parse_number _ _ _ _ h hpw
      · split at h
        · exact iho _ _ _ h hpw
        · split at h
          · exact iha _ _ _ h hpw
          · split at h
            · injection h with h1 h2
              subst h2
              exact noEOFE_push _ _ hpw (by simp)
            · exact absurd h (by simp)
      · exact absurd h (by simp)
      · exact absurd h (by simp)
    -- parse_array
    · intro st r st' h hst
      simp only [parse_array] at h
      split at h
      · injection h with h1 h2
        subst h2
        exact noEOFE_push _ _ hst (by simp)
      · injection h with h1 h2
        subst h2
        exact hst
      · split at h
        · rename_i heq
          injection h with h1 h2
          subst h2
          exact ihae _ _ _ heq hst
        · exact absurd h (by simp)
        · exact absurd h (by simp)
      · exact absurd h (by simp)
    -- parse_object
    · intro st r st' h hst
      simp only [parse_object] at h
      split at h
      · injection h with h1 h2
        subst h2
        exact noEOFE_push _ _ hst (by simp)
      · injection h with h1 h2
        subst h2
        exact hst
      · split at h
        · rename_i heq
          injection h with h1 h2
          subst h2
          exact ihom _ _ _ heq hst
        · exact absurd h (by simp)
        · exact absurd h (by simp)
      · exact absurd h (by simp)
    -- parse_array_elements
    · intro st r st' h hst
      simp only [parse_array_elements] at h
      split at h
      · injection h with h1 h2
        subst h2
        exact noEOFE_push _ _ hst (by simp)
      · exact ihal _ _ _ _ h hst
    -- parseArrayElementsLoop
    · intro acc st r st' h hst
      have hpw : noEOFE (parse_whitespace st).errors := by
        rw [parse_whitespace_errors]; exact hst
      simp only [parseArrayElementsLoop] at h
      split at h
      · exact absurd h (by simp)
      · exact absurd h (by simp)
      · rename_i vOpt st1 heq1
        have h1 : noEOFE st1.errors := ihv _ _ _ heq1 hpw
        split at h
        · exact absurd h (by simp)
        · exact absurd h (by simp)
        · rename_i u st2 heq2
          have h2 : noEOFE st2.errors := ihu _ _ _ _ _ heq2 h1
          split at h
          · exact absurd h (by simp)
          · exact absurd h (by simp)
          · rename_i reached st3 heq3
            have h3 : noEOFE st3.errors := noEOFE_parse_sequence_separator _ _ _ _ heq3 h2
            split at h
            · injection h with h1 h2
              subst h2
              exact h3
            · exact ihal _ _ _ _ h h3
    -- parse_object_members
    · intro st r st' h hst
      simp only [parse_object_members] at h
      split at h
      · injection h with h1 h2
        subst h2
        exact noEOFE_push _ _ hst (by simp)
      · exact ihol _ _ _ _ h hst
    -- parseObjectMembersLoop
    · intro acc st r st' h hst
      have hpw : noEOFE (parse_whitespace st).errors := by
        rw [parse_whitespace_errors]; exact hst
      simp only [parseObjectMembersLoop] at h
      -- case-split the member step, then the shared tail
      split at h
      · exact absurd h (by simp)
      · exact absurd h (by simp)
      · rename_i members' stM heqStep
        have hM : noEOFE stM.errors := by
          split at heqStep
          -- [String s, ':'] member arm
          · split at heqStep
            · exact absurd heqStep (by simp)
            · exact absurd heqStep (by simp)
            · rename_i key st2 heqPS
              have h2 : noEOFE st2.errors := noEOFE_parse_string _ _ _ _ heqPS hpw
              split at heqStep
              · exact absurd heqStep (by simp)
              · exact absurd heqStep (by simp)
              · rename_i v3 st3 heqPV
                injection heqStep with hh1 hh2
                subst hh2
                exact ihv _ _ _ heqPV h2
              · rename_i st3 heqPV
                injection heqStep with hh1 hh2
                subst hh2
                exact ihv _ _ _ heqPV h2
            · exact absurd heqStep (by simp)
            · rename_i st2 heqPS
              have h2 : noEOFE st2.errors := noEOFE_parse_string _ _ _ _ heqPS hpw
              split at heqStep
              · exact absurd heqStep (by simp)
              · exact absurd heqStep (by simp)
              · rename_i r3 st3 heqPV
                injection heqStep with hh1 hh2
                subst hh2
                exact ihv _ _ _ heqPV h2
          -- [token, ':'] arm, token not a string
          · split at heqStep
            · exact absurd heqStep (by simp)
            · exact absurd heqStep (by simp)
            · rename_i r3 st3 heqPV
              injection heqStep with hh1 hh2
              subst hh2
              exact ihv _ _ _ heqPV (noEOFE_push _ _ hpw (by simp))
          -- [':'] arm
          · split at heqStep
            · exact absurd heqStep (by simp)
            · exact absurd heqStep (by simp)
            · rename_i r3 st3 heqPV
              injection heqStep with hh1 hh2
              subst hh2
              exact ihv _ _ _ heqPV (noEOFE_push _ _ hpw (by simp))
          -- [String s] without colon
          · injection heqStep with hh1 hh2
            subst hh2
            exact noEOFE_push _ _ hpw (by simp)
          -- any other token
          · injection heqStep with hh1 hh2
            subst hh2
            exact noEOFE_push _ _ hpw (by simp)
          -- empty token list: the panic arm, incompatible with ok
          · exact absurd heqStep (by simp)
        split at h
        · exact absurd h (by simp)
        · exact absurd h (by simp)
        · rename_i u st2 heq2
          have h2 : noEOFE st2.errors := ihu _ _ _ _ _ heq2 hM
          split at h
          · exact absurd h (by simp)
          · exact absurd h (by simp)
          · rename_i reached st3 heq3
            have h3 : noEOFE st3.errors := noEOFE_parse_sequence_separator _ _ _ _ heq3 h2
            split at h
            · injection h with h1 h2
              subst h2
              exact h3
            · exact ihol _ _ _ _ h h3
    -- parseUntilLoop
    · intro endc seen st r st' h hst
      have hpw : noEOFE (parse_whitespace st).errors := by
        rw [parse_whitespace_errors]; exact hst
      simp only [parseUntilLoop] at h
      split at h
      · injection h with h1 h2
        subst h2
        split
        · exact noEOFE_push _ _ hpw (by simp)
        · exact hpw
      · split at h
        · injection h with h1 h2
          subst h2
          split
          · exact noEOFE_push _ _ hpw (by simp)
          · exact hpw
        · split at h
          · split at h
            · injection h with h1 h2
              subst h2
              split
              · exact noEOFE_push _ _ hpw (by simp)
              · exact hpw
            · split at h
              · split at h
                · exact absurd h (by simp)
                · exact absurd h (by simp)
                · rename_i r2 st2 heqPV
                  exact ihu _ _ _ _ _ h (ihv _ _ _ heqPV hpw)
              · exact ihu _ _ _ _ _ h hpw
          · exact ihu _ _ _ _ _ h hpw

/-- C1, counterexample.  `{"a":null}` is a syntactically valid JSON text
(an object with one member and no interior whitespace), yet `parse`
returns `Err` with an `ExpectedToken` diagnostic instead of `Ok`: the
`[String, ':']` member arm of `parse_object_members` slices two tokens off
and `parse_string` then unconditionally consumes a third, so the member
value `null` itself is swallowed and the subsequent `parse_value` lands on
the closing brace.  Hence the round-trip claim fails for this valid text. -/
theorem c1_cx_valid_object_rejected :
    parse "\x7b\"a\":null\x7d".toList = .ok (.error [⟨.expectedToken, 1, 9⟩]) ∧
    ¬ ∃ v, parse "\x7b\"a\":null\x7d".toList = .ok (.ok v) := by
  refine ⟨rfl, ?_⟩
  rintro ⟨v, hv⟩
  rw [show parse "\x7b\"a\":null\x7d".toList = .ok (.error [⟨.expectedToken, 1, 9⟩]) from rfl] at hv
  simp at hv

/-- C2, code bug.  On the malformed-but-textual input `{1, ` the parser
reaches the `[] => panic!("Shouldn't be able to get an empty list")` arm of
`parse_object_members` (the separator loop consumes the comma, the
whitespace skip then empties the token list) and aborts instead of
returning a result.  The panic string in the model paraphrases the source
message without the apostrophe. -/
theorem c2_parse_panics_on_object_trailing_comma :
    parse "\x7b1, ".toList = .panicked "Should not be able to get an empty list" := rfl

/-- C3, counterexample.  On `{:1, ` the run pushes a `KeyMustBeAString`
diagnostic and then aborts through the same `panic!` instead of returning;
so neither branch of the claimed equivalence can hold at this input:
whether or not one counts the accumulated diagnostic, `parse` returns
neither `Ok` nor `Err` here. -/
theorem c3_cx_panic_instead_of_err :
    parse "\x7b:1, ".toList = .panicked "Should not be able to get an empty list" ∧
    ¬ ∃ r, parse "\x7b:1, ".toList = .ok r := by
  refine ⟨rfl, ?_⟩
  rintro ⟨r, hr⟩
  rw [show parse "\x7b:1, ".toList = .panicked "Should not be able to get an empty list" from rfl] at hr
  simp at hr

/-- C4, counterexample.  The empty input is one "where no root value could
be parsed at all", yet the returned list is exactly one
`EndOfFileWhileParsingValue` and contains no `EndOfFileExpected`
diagnostic: the top level adds `EndOfFileExpected` only when the
accumulated list is empty, never "in addition to" accumulated
diagnostics. -/
theorem c4_cx_no_eof_expected_on_empty_input :
    parse [] = .ok (.error [⟨.endOfFileWhileParsingValue, 1, 1⟩]) ∧
    (Error.mk .endOfFileWhileParsingValue 1 1).code ≠ .endOfFileExpected := by
  exact ⟨rfl, by decide⟩

/-- C4, amended.  `EndOfFileExpected` is never returned "in addition to"
accumulated diagnostics: whenever `parse` returns `Err` with a list
containing an `EndOfFileExpected` diagnostic, that list is exactly the
fresh singleton the top level creates when — and only when — the
accumulated list is empty (the recursive parser never records this code,
and lexical diagnostics are all `ExpectedToken`).  On `"null null"` the
result is exactly that singleton, at line 1 column 5. -/
theorem c4_eof_expected_only_as_fresh_singleton :
    (∀ json l, parse json = .ok (.error l) →
      (∃ e ∈ l, e.code = ErrorCode.endOfFileExpected) →
      ∃ ln col, l = [⟨ErrorCode.endOfFileExpected, ln, col⟩]) ∧
    parse "null null".toList = .ok (.error [⟨.endOfFileExpected, 1, 5⟩]) := by
  refine ⟨?_, rfl⟩
  intro json l h hex
  obtain ⟨e, hel, hec⟩ := hex
  simp only [parse] at h
  split at h
  · rename_i errs heq
    injection h with h1
    injection h1 with h2
    subst h2
    exfalso
    unfold Token.try_from_json at heq
    generalize hR : tryFromJsonAux (tokenize_into_strings json) 1 1 = R at heq
    obtain ⟨toks, errors⟩ := R
    dsimp only at heq
    by_cases hne : errors = []
    · subst hne
      simp at heq
    · rw [if_pos hne] at heq
      injection heq with heq'
      subst heq'
      have := tryFromJsonAux_errors_lb (tokenize_into_strings json) 1 1 e (by rw [hR]; exact hel)
      rw [hec] at this
      exact absurd this.2 (by decide)
  · rename_i tokens heq
    split at h
    · exact absurd h (by simp)
    · exact absurd h (by simp)
    · rename_i vopt st hpv
      have hst : noEOFE st.errors :=
        (parser_noEOFE (parseFuel tokens)).1 _ _ _ hpv (by intro e he; simp at he)
      split at h
      · injection h with h1
        injection h1 with h2
        subst h2
        exact absurd hec (hst e hel)
      · split at h
        · injection h with h1
          injection h1 with h2
          subst h2
          exact ⟨st.line_number, st.col_number, rfl⟩
        · split at h
          · injection h with h1
            injection h1 with h2
            subst h2
            exact ⟨st.line_number, st.col_number, rfl⟩
          · exact absurd h (by simp)

/-- Witness for `c4_eof_expected_only_as_fresh_singleton` at the input
`null null`, whose `Err` list contains `EndOfFileExpected`. -/
theorem c4_witness :
    ∃ ln col, [(⟨.endOfFileExpected, 1, 5⟩ : Error)]
      = [⟨ErrorCode.endOfFileExpected, ln, col⟩] :=
  c4_eof_expected_only_as_fresh_singleton.1 "null null".toList
    [⟨.endOfFileExpected, 1, 5⟩] rfl
    ⟨⟨.endOfFileExpected, 1, 5⟩, by simp, rfl⟩

/-- C5, counterexample.  On `[x` the span `x` fails lexical classification;
`Parser::parse` propagates the lexical error list with `?` and never runs
the grammar, so the unterminated array produces no
`EndOfFileWhileParsing(']')` diagnostic: the lexical failure is a fatal
error that suppresses grammar diagnostics, contrary to the claim. -/
theorem c5_cx_lexical_error_suppresses_grammar :
    parse "[x".toList = .ok (.error [⟨.expectedToken, 1, 2⟩]) ∧
    ∀ e ∈ [Error.mk .expectedToken 1 2], e.code ≠ .endOfFileWhileParsing ']' := by
  exact ⟨rfl, by decide⟩

/-- C6, counterexample.  In `Token::try_from_json` a `"\n"` token first
bumps the line and resets the column to 1, but then its own length is
added to the column, so the unit `g` starting immediately after the
newline is reported at column 2 of line 2, not column 1 as claimed. -/
theorem c6_cx_unit_after_newline_at_column_two :
    parse "\ng".toList = .ok (.error [⟨.expectedToken, 2, 2⟩]) := rfl

/-- C7, counterexample.  In `Reader::read_in` (the on-demand classification
used by `peek`/`next`) a backslash is an ordinary character: in
`"a\",b"` the escaped quote toggles string-capture mode off, so the comma
splits the input and three units come out instead of one string token —
the batch tokenizer keeps the whole span as one string.  The claim that
the escape is consumed atomically in every lexing entry point fails. -/
theorem c7_cx_reader_escape_not_atomic :
    Reader.next 3 (Reader.new "\"a\\\",b\"".toList) =
      .ok ([.ok (.string ['"', 'a', '\\', '"']), .ok (.punctuation ','),
            .error ⟨.expectedToken, 1, 8⟩], ⟨[], [], 1, 8⟩) ∧
    tokenize_into_strings "\"a\\\",b\"".toList = [['"', 'a', '\\', '"', ',', 'b', '"']] := by
  exact ⟨rfl, rfl⟩

/-- C8, counterexample.  On the input `"é"` the lexer advances 3 source
characters and emits one string token, but `Token::len` reports the UTF-8
byte length 4 (`String::len` counts bytes), so the claimed equality with
the number of advanced characters fails on non-ASCII input. -/
theorem c8_cx_len_counts_bytes_not_chars :
    Token.try_from_json "\"é\"".toList = .ok [.string ['"', 'é', '"']] ∧
    (Token.string ['"', 'é', '"']).len = 4 ∧
    "\"é\"".toList.length = 3 := by
  exact ⟨rfl, rfl, rfl⟩

/-- C9, counterexample.  In `[1 : 2]` the resynchronization loop skips the
units `:` and `2` (the colon arm parses and discards the value) without
setting the junk flag, so no `ExpectedCommaOrEndWhileParsing` diagnostic —
indeed no diagnostic at all — is produced for a nonempty skipped run, and
the parse even succeeds, silently dropping `: 2`. -/
theorem c9_cx_colon_junk_run_yields_no_diagnostic :
    parse "[1 : 2]".toList = .ok (.ok (.array [.number 1])) := rfl

/-- C10, confirmed.  The `[]`/`{}` fast paths fire only when the opening
and closing brackets are adjacent lexical units: `[]` and `{}` parse to the
empty array/object, while `[ ]` yields an `ExpectedToken` diagnostic and
`{ }` yields a `KeyMustBeAString` diagnostic (followed by the
`EndOfFileWhileParsing('}')` recorded when the member loop runs off the
end), both inside `Err`, despite being well-formed JSON. -/
theorem c10_empty_structure_fast_path_requires_adjacency :
    parse "[]".toList = .ok (.ok (.array [])) ∧
    parse "\x7b\x7d".toList = .ok (.ok (.object [])) ∧
    parse "[ ]".toList = .ok (.error [⟨.expectedToken, 1, 3⟩]) ∧
    parse "\x7b \x7d".toList =
      .ok (.error [⟨.keyMustBeAString, 1, 3⟩, ⟨.endOfFileWhileParsing '}', 1, 4⟩]) := by
  exact ⟨rfl, rfl, rfl, rfl⟩

/-! ## C1: round trip for a whitespace-annotated JSON grammar

The input text is described as a list of lexical span units (`SpanU`).
`crender` gives the source characters of a unit list, `SpanU.spanOf` the
string the batch tokenizer emits for one unit, and `SpanU.tokOf` its
classification.  A chain condition (`chainB`) captures the two boundary
facts the tokenizer needs: a word or quoted string must be followed by a
self-delimiting unit (punctuation, newline or whitespace), and two
space/tab runs must not be adjacent (they would fuse). -/

/-- One lexical unit of source text: a punctuation character, a newline,
a run of spaces and tabs, a bare word (null, true, false or a number
spelling), or a quoted string with the given contents. -/
inductive SpanU where
  | punct (c : Char)
  | nl
  | sps (u : List Char)
  | word (w : List Char)
  | str (s : List Char)
  deriving DecidableEq, Repr

/-- Source characters of one unit. -/
def SpanU.render : SpanU → List Char
  | .punct c => [c]
  | .nl => ['\n']
  | .sps u => u
  | .word w => w
  | .str s => '"' :: (s ++ ['"'])

/-- The string `tokenize_into_strings` emits for one unit (a space/tab run
comes out as that many plain spaces). -/
def SpanU.spanOf : SpanU → List Char
  | .punct c => [c]
  | .nl => ['\n']
  | .sps u => List.replicate u.length ' '
  | .word w => w
  | .str s => '"' :: (s ++ ['"'])

/-- The token `Token::try_from_token` assigns to the unit's span. -/
def SpanU.tokOf : SpanU → Token
  | .punct c => .punctuation c
  | .nl => .newLine
  | .sps u => .whitespace u.length
  | .word w => (Token.try_from_token w).getD .null
  | .str s => .string ('"' :: (s ++ ['"']))

/-- Character that the tokenizer simply accumulates into the pending span
(in no-quote mode): not a quote, backslash, punctuation, newline, carriage
return or whitespace. -/
def plainChar (c : Char) : Bool :=
  !(c == '"') && !(c == '\\') && !isPunct c && !(c == '\n') && !(c == '\r')
    && !rustIsWhitespace c

def spaceyChar (c : Char) : Bool := c == ' ' || c == '\t'

/-- Well-formedness of one unit.  A word must be a nonempty run of plain
characters that classifies to some token; a string content must avoid the
quote and the backslash. -/
def SpanU.wf : SpanU → Bool
  | .punct c => isPunct c
  | .nl => true
  | .sps u => !u.isEmpty && u.all spaceyChar
  | .word w => !w.isEmpty && w.all plainChar && (Token.try_from_token w).isSome
  | .str s => s.all (fun c => !(c == '"') && !(c == '\\'))

/-- Does the unit start with a space or tab? -/
def SpanU.spacey : SpanU → Bool
  | .sps _ => true
  | _ => false

/-- Does the unit's first character flush a pending span (punctuation,
newline, or whitespace)? -/
def SpanU.flushes : SpanU → Bool
  | .punct _ => true
  | .nl => true
  | .sps _ => true
  | _ => false

/-- Is the unit pure whitespace (its token survives `Token.is_whitespace`)? -/
def SpanU.wsU : SpanU → Bool
  | .nl => true
  | .sps _ => true
  | _ => false

/-- Boundary condition between two adjacent units: a non-self-delimiting
unit must be followed by a flushing one, and two space/tab runs must not
touch. -/
def chainOK (a b : SpanU) : Bool :=
  (a.flushes || b.flushes) && !(a.spacey && b.spacey)

/-- The chain condition along a unit list. -/
def chainB : List SpanU → Bool
  | [] => true
  | [_] => true
  | a :: b :: rest => chainOK a b && chainB (b :: rest)

/-- Source characters of a unit list. -/
def crender : List SpanU → List Char
  | [] => []
  | u :: us => u.render ++ crender us

/-- A list of whitespace units (each well formed and pure whitespace, and
chained: no two adjacent space/tab runs). -/
def wsList (l : List SpanU) : Bool :=
  l.all (fun u => u.wf && u.wsU) && chainB l

theorem chainB_cons (a : SpanU) (us : List SpanU) (h : chainB (a :: us) = true) :
    chainB us = true ∧ ∀ b, us.head? = some b → chainOK a b = true := by
  cases us with
  | nil => exact ⟨rfl, by intro b hb; simp at hb⟩
  | cons b rest =>
    simp only [chainB, Bool.and_eq_true] at h
    refine ⟨h.2, ?_⟩
    intro x hx
    simp only [List.head?_cons, Option.some.injEq] at hx
    subst hx
    exact h.1

theorem isPunct_facts (c : Char) (h : isPunct c = true) :
    c ≠ '"' ∧ c ≠ '\\' ∧ rustIsWhitespace c = false ∧ spaceyChar c = false := by
  simp only [isPunct, List.mem_cons, decide_eq_true_eq, List.not_mem_nil, or_false] at h
  rcases h with h | h | h | h | h | h <;> subst h <;> exact ⟨by decide, by decide, rfl, rfl⟩

theorem spaceyChar_facts (c : Char) (h : spaceyChar c = true) :
    rustIsWhitespace c = true ∧ c ≠ '"' ∧ c ≠ '\\' ∧ isPunct c = false ∧
      c ≠ '\n' ∧ c ≠ '\r' := by
  simp only [spaceyChar, Bool.or_eq_true, beq_iff_eq] at h
  rcases h with h | h <;> subst h <;> exact ⟨rfl, by decide, by decide, rfl, by decide, by decide⟩

theorem plainChar_facts (c : Char) (h : plainChar c = true) :
    c ≠ '"' ∧ c ≠ '\\' ∧ isPunct c = false ∧ c ≠ '\n' ∧ c ≠ '\r' ∧
      rustIsWhitespace c = false := by
  simp only [plainChar, Bool.and_eq_true, Bool.not_eq_true', beq_eq_false_iff_ne, ne_eq,
    Bool.not_eq_true] at h
  exact ⟨h.1.1.1.1.1, h.1.1.1.1.2, h.1.1.1.2, h.1.1.2, h.1.2, h.2⟩

theorem takeSpaces_append (u : List Char) (cs : List Char)
    (hu : ∀ c ∈ u, spaceyChar c = true)
    (hcs : ∀ c, cs.head? = some c → spaceyChar c = false) :
    takeSpaces (u ++ cs) = (u.length, cs) := by
  induction u with
  | nil =>
    cases cs with
    | nil => rfl
    | cons c cs2 =>
      have := hcs c rfl
      simp only [spaceyChar, Bool.or_eq_false_iff, beq_eq_false_iff_ne, ne_eq] at this
      simp [takeSpaces, this.1, this.2]
  | cons c u2 ih =>
    have hc := hu c (by simp)
    simp only [spaceyChar, Bool.or_eq_true, beq_iff_eq] at hc
    simp only [List.cons_append, takeSpaces, hc, if_pos, List.append_eq]
    rw [ih (fun d hd => hu d (by simp [hd]))]
    simp

/-- In no-quote mode a run of plain characters is accumulated one by one
into the pending span. -/
theorem tokenizeAux_plain (a : List Char) : ∀ (fuel : Nat) (cs cur : List Char),
    (∀ c ∈ a, plainChar c = true) →
    tokenizeAux (a.length + fuel) (a ++ cs) false cur = tokenizeAux fuel cs false (cur ++ a) := by
  induction a with
  | nil => simp
  | cons c a2 ih =>
    intro fuel cs cur h
    obtain ⟨h1, h2, h3, h4, h5, h6⟩ := plainChar_facts c (h c (by simp))
    simp only [List.length_cons, List.cons_append]
    rw [show a2.length + 1 + fuel = (a2.length + fuel) + 1 from by omega]
    simp only [tokenizeAux]
    rw [if_neg h1, if_neg (by simp), if_neg (by simp [h3, h4, h5]), if_neg (by simp [h6])]
    rw [ih fuel cs (cur ++ [c]) (fun d hd => h d (by simp [hd]))]
    simp

/-- A whole quoted span (opening quote, backslash-free and quote-free
contents, closing quote) is accumulated as one pending span. -/
theorem tokenizeAux_strUnit (s : List Char) (fuel : Nat) (cs cur : List Char)
    (h : ∀ c ∈ s, c ≠ '"' ∧ c ≠ '\\') :
    tokenizeAux ((s.length + 2) + fuel) (('"' :: (s ++ ['"'])) ++ cs) false cur
      = tokenizeAux fuel cs false (cur ++ ('"' :: (s ++ ['"']))) := by
  have h1 : ('"' :: (s ++ ['"'])) ++ cs = '"' :: (s ++ ('"' :: cs)) := by simp
  rw [h1, show (s.length + 2) + fuel = (s.length + (fuel + 1)) + 1 from by omega,
    tokenizeAux_quote]
  simp only [Bool.not_false]
  rw [tokenizeAux_in_quotes s (fuel + 1) ('"' :: cs) (cur ++ ['"']) h, tokenizeAux_quote]
  simp

theorem crender_head_not_spacey (us : List SpanU)
    (hwf : ∀ u ∈ us, u.wf = true)
    (hh : ∀ u, us.head? = some u → u.spacey = false) :
    ∀ c, (crender us).head? = some c → spaceyChar c = false := by
  cases us with
  | nil => intro c hc; simp [crender] at hc
  | cons u rest =>
    intro c hc
    have hu := hwf u (by simp)
    have hsp := hh u (by simp)
    cases u with
    | punct p =>
      simp only [crender, SpanU.render, List.cons_append, List.head?_cons,
        Option.some.injEq] at hc
      subst hc
      exact (isPunct_facts p (by simpa [SpanU.wf] using hu)).2.2.2
    | nl =>
      simp only [crender, SpanU.render, List.cons_append, List.head?_cons,
        Option.some.injEq] at hc
      subst hc
      rfl
    | sps v => simp [SpanU.spacey] at hsp
    | word w =>
      simp only [SpanU.wf, Bool.and_eq_true] at hu
      cases w with
      | nil => simp [List.isEmpty] at hu
      | cons d w2 =>
        simp only [crender, SpanU.render, List.cons_append, List.head?_cons,
          Option.some.injEq] at hc
        have hall : ∀ x ∈ d :: w2, plainChar x = true := by
          have := hu.1.2
          simpa [List.all_eq_true] using this
        have hws := (plainChar_facts d (hall d (by simp))).2.2.2.2.2
        have hgoal : spaceyChar d = false := by
          cases h9 : spaceyChar d
          · rfl
          · rw [(spaceyChar_facts d h9).1] at hws
            cases hws
        rw [← hc]
        exact hgoal
    | str s =>
      simp only [crender, SpanU.render, List.cons_append, List.head?_cons,
        Option.some.injEq] at hc
      subst hc
      rfl

/-- Whether the head unit of a list self-delimits (an empty list counts). -/
def headFl : List SpanU → Prop
  | [] => True
  | u :: _ => u.flushes = true

/-- The batch tokenizer turns a well-formed, well-chained unit list into
exactly the units' spans, flushing any pending span first. -/
theorem spans_go : ∀ (us : List SpanU) (extra : Nat) (cur : List Char),
    (∀ u ∈ us, u.wf = true) → chainB us = true →
    (cur = [] ∨ headFl us) →
    tokenizeAux ((crender us).length + extra + 1) (crender us) false cur
      = (if cur = [] then [] else [cur]) ++ us.map SpanU.spanOf := by
  intro us
  induction us with
  | nil =>
    intro extra cur hwf hch hcur
    simp [crender, tokenizeAux]
  | cons u us2 ih =>
    intro extra cur hwf hch hcur
    obtain ⟨hch2, hlink⟩ := chainB_cons u us2 hch
    have hwf2 : ∀ v ∈ us2, v.wf = true := fun v hv => hwf v (by simp [hv])
    have hu : u.wf = true := hwf u (by simp)
    cases u with
    | punct c =>
      obtain ⟨hq, hb, hw, hs⟩ := isPunct_facts c (by simpa [SpanU.wf] using hu)
      simp only [crender, SpanU.render, List.cons_append, List.nil_append,
        List.length_cons, List.map_cons, SpanU.spanOf]
      rw [show (crender us2).length + 1 + extra + 1 = ((crender us2).length + extra + 1) + 1
        from by omega]
      simp only [tokenizeAux]
      rw [if_neg hq, if_neg (by simp), if_pos (by
        refine ⟨by simp, Or.inl ?_⟩
        simpa [SpanU.wf] using hu)]
      rw [ih extra [] hwf2 hch2 (Or.inl rfl)]
      simp
    | nl =>
      simp only [crender, SpanU.render, List.cons_append, List.nil_append,
        List.length_cons, List.map_cons, SpanU.spanOf]
      rw [show (crender us2).length + 1 + extra + 1 = ((crender us2).length + extra + 1) + 1
        from by omega]
      simp only [tokenizeAux]
      rw [if_neg (by decide), if_neg (by simp), if_pos (by exact ⟨by simp, by simp⟩)]
      rw [ih extra [] hwf2 hch2 (Or.inl rfl)]
      simp
    | sps v =>
      simp only [SpanU.wf, Bool.and_eq_true, Bool.not_eq_true', List.all_eq_true] at hu
      cases v with
      | nil => simp [List.isEmpty] at hu
      | cons a v2 =>
        have ha := hu.2 a (by simp)
        obtain ⟨haw, haq, hab, hap, han, har⟩ := spaceyChar_facts a ha
        simp only [crender, SpanU.render, List.cons_append, List.length_cons,
          List.length_append, List.map_cons, SpanU.spanOf]
        rw [show v2.length + (crender us2).length + 1 + extra + 1
          = (v2.length + (crender us2).length + extra + 1) + 1 from by omega]
        simp only [tokenizeAux]
        rw [if_neg haq, if_neg (by simp), if_neg (by simp [hap, han, har]),
          if_pos (by simp [haw])]
        have hhead : ∀ c, (crender us2).head? = some c → spaceyChar c = false := by
          refine crender_head_not_spacey us2 hwf2 ?_
          intro b hb
          have := hlink b hb
          simp only [chainOK, Bool.and_eq_true, Bool.not_eq_true', Bool.and_eq_false_iff,
            SpanU.spacey] at this
          rcases this.2 with h | h
          · exact absurd h (by simp)
          · exact h
        rw [takeSpaces_append v2 (crender us2) (fun d hd => hu.2 d (by simp [hd])) hhead]
        dsimp only
        rw [show v2.length + (crender us2).length + extra + 1
          = (crender us2).length + (extra + v2.length) + 1 from by omega]
        rw [ih (extra + v2.length) [] hwf2 hch2 (Or.inl rfl)]
        simp [List.replicate_succ]
    | word w =>
      have hcur2 : cur = [] := by
        rcases hcur with h | h
        · exact h
        · simp [headFl, SpanU.flushes] at h
      subst hcur2
      simp only [SpanU.wf, Bool.and_eq_true, Bool.not_eq_true', List.all_eq_true] at hu
      simp only [crender, SpanU.render, List.length_append, List.map_cons, SpanU.spanOf]
      rw [show w.length + (crender us2).length + extra + 1
        = w.length + ((crender us2).length + extra + 1) from by omega]
      rw [tokenizeAux_plain w ((crender us2).length + extra + 1) (crender us2) []
        hu.1.2]
      simp only [List.nil_append]
      rw [ih extra w hwf2 hch2 ?_]
      · have hwne : w ≠ [] := by
          intro he; subst he; simp [List.isEmpty] at hu
        simp [hwne]
      · cases us2 with
        | nil => exact Or.inr trivial
        | cons b rest =>
          right
          have := hlink b rfl
          simp only [chainOK, Bool.and_eq_true, Bool.or_eq_true, SpanU.flushes] at this
          rcases this.1 with h | h
          · exact absurd h (by simp)
          · exact h
    | str s =>
      have hcur2 : cur = [] := by
        rcases hcur with h | h
        · exact h
        · simp [headFl, SpanU.flushes] at h
      subst hcur2
      have hs : ∀ c ∈ s, c ≠ '"' ∧ c ≠ '\\' := by
        intro c hc
        simp only [SpanU.wf, List.all_eq_true] at hu
        have := hu c hc
        simp only [Bool.and_eq_true, Bool.not_eq_true', beq_eq_false_iff_ne, ne_eq] at this
        exact this
      rw [show crender (SpanU.str s :: us2) = ('"' :: (s ++ ['"'])) ++ crender us2 from rfl]
      rw [show (('"' :: (s ++ ['"'])) ++ crender us2).length + extra + 1
        = (s.length + 2) + ((crender us2).length + extra + 1) from by
          simp only [List.length_append, List.length_cons, List.length_nil]
          omega]
      rw [tokenizeAux_strUnit s ((crender us2).length + extra + 1) (crender us2) [] hs]
      simp only [List.nil_append]
      rw [ih extra ('"' :: (s ++ ['"'])) hwf2 hch2 ?_]
      · simp [SpanU.spanOf]
      · cases us2 with
        | nil => exact Or.inr trivial
        | cons b rest =>
          right
          have := hlink b rfl
          simp only [chainOK, Bool.and_eq_true, Bool.or_eq_true, SpanU.flushes] at this
          rcases this.1 with h | h
          · exact absurd h (by simp)
          · exact h

/-- On a well-formed, well-chained unit list the batch tokenizer emits
exactly the units' spans. -/
theorem tokenize_spans (us : List SpanU) (h1 : ∀ u ∈ us, u.wf = true)
    (h2 : chainB us = true) :
    tokenize_into_strings (crender us) = us.map SpanU.spanOf := by
  unfold tokenize_into_strings
  have := spans_go us 0 [] h1 h2 (Or.inl rfl)
  simpa using this

/-- When every span classifies, the token-building loop returns the
classified tokens and no errors. -/
theorem tryFromJsonAux_mapOk : ∀ (spans : List (List Char)) (toks : List Token) (l c : Nat),
    spans.map Token.try_from_token = toks.map some →
    tryFromJsonAux spans l c = (toks, []) := by
  intro spans
  induction spans with
  | nil =>
    intro toks l c h
    cases toks with
    | nil => rfl
    | cons t ts => simp at h
  | cons s rest ih =>
    intro toks l c h
    cases toks with
    | nil => simp at h
    | cons t ts =>
      simp only [List.map_cons, List.cons.injEq] at h
      simp only [tryFromJsonAux]
      rw [ih ts _ _ h.2, h.1]

theorem rustLen_replicate_space (n : Nat) : rustLen (List.replicate n ' ') = n := by
  induction n with
  | zero => rfl
  | succ k ih =>
    simp only [List.replicate_succ, rustLen, List.map_cons, List.sum_cons] at ih ⊢
    rw [ih, show charUtf8Size ' ' = 1 from rfl]
    omega

/-- The span of a well-formed unit classifies to the unit's token. -/
theorem spanOf_classifies (u : SpanU) (h : u.wf = true) :
    Token.try_from_token u.spanOf = some u.tokOf := by
  cases u with
  | punct c =>
    simp only [SpanU.wf] at h
    simp only [isPunct, List.mem_cons, decide_eq_true_eq, List.not_mem_nil, or_false] at h
    rcases h with h | h | h | h | h | h <;> subst h <;> rfl
  | nl => rfl
  | sps v =>
    simp only [SpanU.wf, Bool.and_eq_true, Bool.not_eq_true', List.all_eq_true] at h
    cases v with
    | nil => simp [List.isEmpty] at h
    | cons a v2 =>
      simp only [SpanU.spanOf, SpanU.tokOf, List.length_cons, List.replicate_succ,
        Token.try_from_token]
      rw [if_neg (by
        rintro ⟨h1, h2⟩
        simp [isPunct] at h2)]
      have hlen : rustLen (' ' :: List.replicate v2.length ' ') = v2.length + 1 := by
        have := rustLen_replicate_space (v2.length + 1)
        simpa [List.replicate_succ] using this
      simp [hlen]
  | word w =>
    simp only [SpanU.wf, Bool.and_eq_true] at h
    obtain ⟨t, ht⟩ := Option.isSome_iff_exists.mp h.2
    simp only [SpanU.spanOf, SpanU.tokOf, ht, Option.getD_some]
  | str s =>
    simp only [SpanU.spanOf, SpanU.tokOf, Token.try_from_token]
    rw [if_neg (by rintro ⟨h1, h2⟩; simp [isPunct] at h2)]
    rw [if_neg (by decide), if_neg (by decide)]
    rw [if_neg (by simp), if_neg (by simp), if_neg (by simp)]
    simp

/-- Lexing a well-formed, well-chained unit list succeeds with exactly the
units' tokens. -/
theorem lex_spans (us : List SpanU) (h1 : ∀ u ∈ us, u.wf = true)
    (h2 : chainB us = true) :
    Token.try_from_json (crender us) = .ok (us.map SpanU.tokOf) := by
  unfold Token.try_from_json
  rw [tokenize_spans us h1 h2]
  have hmap : (us.map SpanU.spanOf).map Token.try_from_token
      = (us.map SpanU.tokOf).map some := by
    simp only [List.map_map]
    refine List.map_congr_left ?_
    intro u hu
    exact spanOf_classifies u (h1 u hu)
  rw [tryFromJsonAux_mapOk _ _ 1 1 hmap]
  simp

/-! ### The whitespace-annotated JSON grammar

A `WJson` value is a JSON tree carrying explicit whitespace at every place
the parser tolerates it.  Whitespace appears in canonical run form
(`wsList`), sequences carry per-element leading and trailing whitespace,
and every object member carries a mandatory nonempty whitespace gap after
the colon — `parse_string` consumes exactly one extra token there (the
code slices the key and colon off together and then drops one more), so
text without that gap is rejected (see the C1 counterexample).  A key is
immediately followed by its colon: the code requires those two tokens to
be adjacent.  Empty arrays and objects are the adjacent `[]` and `\x7b\x7d`
spellings the fast path accepts. -/

mutual
inductive WJson where
  | wnull
  | wbool (b : Bool)
  | wnum (s : List Char)
  | wstr (s : List Char)
  | warrE
  | warrN (es : WElems)
  | wobjE
  | wobjN (ms : WMembs)
inductive WElems where
  | elast (pre : List SpanU) (e : WJson) (post : List SpanU)
  | econs (pre : List SpanU) (e : WJson) (post : List SpanU) (rest : WElems)
inductive WMembs where
  | mlast (pre : List SpanU) (key : List Char) (sep : List SpanU) (v : WJson)
      (post : List SpanU)
  | mcons (pre : List SpanU) (key : List Char) (sep : List SpanU) (v : WJson)
      (post : List SpanU) (rest : WMembs)
end

mutual
/-- Lexical units of a rendered value. -/
def spanJ : WJson → List SpanU
  | .wnull => [.word ['n', 'u', 'l', 'l']]
  | .wbool true => [.word ['t', 'r', 'u', 'e']]
  | .wbool false => [.word ['f', 'a', 'l', 's', 'e']]
  | .wnum s => [.word s]
  | .wstr s => [.str s]
  | .warrE => [.punct '[', .punct ']']
  | .warrN es => .punct '[' :: spanE es
  | .wobjE => [.punct '{', .punct '}']
  | .wobjN ms => .punct '{' :: spanM ms
/-- Units of an element sequence, up to and including the closing bracket. -/
def spanE : WElems → List SpanU
  | .elast pre e post => pre ++ spanJ e ++ post ++ [.punct ']']
  | .econs pre e post rest => pre ++ spanJ e ++ post ++ (.punct ',' :: spanE rest)
/-- Units of a member sequence, up to and including the closing brace. -/
def spanM : WMembs → List SpanU
  | .mlast pre k sep v post =>
      pre ++ (.str k :: .punct ':' :: sep) ++ spanJ v ++ post ++ [.punct '}']
  | .mcons pre k sep v post rest =>
      pre ++ (.str k :: .punct ':' :: sep) ++ spanJ v ++ post ++ (.punct ',' :: spanM rest)
end

mutual
/-- The reference value of an annotated tree (numbers through the same
`parseF64` model, objects with `HashMap::insert` semantics). -/
def strip : WJson → Value
  | .wnull => .null
  | .wbool b => .bool b
  | .wnum s => .number ((parseF64 s).getD 0)
  | .wstr s => .string s
  | .warrE => .array []
  | .warrN es => .array (stripE es)
  | .wobjE => .object []
  | .wobjN ms => .object (stripM [] ms)
def stripE : WElems → List Value
  | .elast _ e _ => [strip e]
  | .econs _ e _ rest => strip e :: stripE rest
def stripM : List (List Char × Value) → WMembs → List (List Char × Value)
  | acc, .mlast _ k _ v _ => insertMember acc k (strip v)
  | acc, .mcons _ k _ v _ rest => stripM (insertMember acc k (strip v)) rest
end

mutual
/-- Well-formedness: whitespace gaps are canonical `wsList`s, a number
spelling is a plain word that classifies as a number token and decodes,
string and key contents avoid quote and backslash, and each member's
post-colon gap is nonempty. -/
def wfJ : WJson → Bool
  | .wnull => true
  | .wbool _ => true
  | .wnum s => !s.isEmpty && s.all plainChar
      && decide (Token.try_from_token s = some (.number s)) && (parseF64 s).isSome
  | .wstr s => s.all (fun c => !(c == '"') && !(c == '\\'))
  | .warrE => true
  | .warrN es => wfE es
  | .wobjE => true
  | .wobjN ms => wfM ms
def wfE : WElems → Bool
  | .elast pre e post => wsList pre && wfJ e && wsList post
  | .econs pre e post rest => wsList pre && wfJ e && wsList post && wfE rest
def wfM : WMembs → Bool
  | .mlast pre k sep v post =>
      wsList pre && k.all (fun c => !(c == '"') && !(c == '\\')) && wsList sep
        && !sep.isEmpty && wfJ v && wsList post
  | .mcons pre k sep v post rest =>
      wsList pre && k.all (fun c => !(c == '"') && !(c == '\\')) && wsList sep
        && !sep.isEmpty && wfJ v && wsList post && wfM rest
end

mutual
/-- A sufficient recursion-fuel budget for parsing a rendered value. -/
def wfuel : WJson → Nat
  | .wnull => 1
  | .wbool _ => 1
  | .wnum _ => 1
  | .wstr _ => 1
  | .warrE => 2
  | .warrN es => 3 + efuel es
  | .wobjE => 2
  | .wobjN ms => 3 + mfuel ms
def efuel : WElems → Nat
  | .elast _ e _ => 3 + wfuel e
  | .econs _ e _ rest => 3 + wfuel e + efuel rest
def mfuel : WMembs → Nat
  | .mlast _ _ _ v _ => 3 + wfuel v
  | .mcons _ _ _ v _ rest => 3 + wfuel v + mfuel rest
end

/-- Tokens of a rendered value. -/
def tokJ (w : WJson) : List Token := (spanJ w).map SpanU.tokOf

/-- Tokens of a rendered element sequence. -/
def tokE (es : WElems) : List Token := (spanE es).map SpanU.tokOf

/-- Tokens of a rendered member sequence. -/
def tokM (ms : WMembs) : List Token := (spanM ms).map SpanU.tokOf

theorem chainOK_punct_left (c : Char) (b : SpanU) : chainOK (.punct c) b = true := rfl

theorem chainOK_of (a b : SpanU) (h1 : a.flushes = true ∨ b.flushes = true)
    (h2 : a.spacey = false ∨ b.spacey = false) : chainOK a b = true := by
  simp only [chainOK, Bool.and_eq_true, Bool.or_eq_true, Bool.not_eq_true',
    Bool.and_eq_false_iff]
  exact ⟨h1, by rcases h2 with h | h <;> simp [h]⟩

theorem chainB_cons_of (a : SpanU) (l : List SpanU) (hl : chainB l = true)
    (h : ∀ b, l.head? = some b → chainOK a b = true) : chainB (a :: l) = true := by
  cases l with
  | nil => rfl
  | cons b rest => simp [chainB, hl, h b rfl]

theorem chainB_append (xs ys : List SpanU) : chainB xs = true → chainB ys = true →
    (∀ a b, xs.getLast? = some a → ys.head? = some b → chainOK a b = true) →
    chainB (xs ++ ys) = true := by
  induction xs with
  | nil =>
    intro _ hy _
    simpa using hy
  | cons a xs2 ih =>
    intro hx hy hlink
    obtain ⟨hx2, hhead⟩ := chainB_cons a xs2 hx
    rw [List.cons_append]
    refine chainB_cons_of a (xs2 ++ ys) (ih hx2 hy ?_) ?_
    · intro p q hp hq
      refine hlink p q ?_ hq
      cases xs2 with
      | nil => simp at hp
      | cons c rest => rw [List.getLast?_cons_cons]; exact hp
    · intro b hb
      cases xs2 with
      | nil =>
        simp only [List.nil_append] at hb
        exact hlink a b (by simp) hb
      | cons c rest =>
        simp only [List.cons_append, List.head?_cons, Option.some.injEq] at hb
        subst hb
        exact hhead c rfl

theorem wsU_flushes (u : SpanU) (h : u.wsU = true) : u.flushes = true := by
  cases u <;> simp_all [SpanU.wsU, SpanU.flushes]

theorem notWsU_spacey (u : SpanU) (h : u.wsU = false) : u.spacey = false := by
  cases u <;> simp_all [SpanU.wsU, SpanU.spacey]

theorem wsU_tok_is_ws (u : SpanU) (h : u.wsU = true) :
    (SpanU.tokOf u).is_whitespace = true := by
  cases u <;> simp_all [SpanU.wsU, SpanU.tokOf, Token.is_whitespace]

theorem wsU_tok_not_punct (u : SpanU) (h : u.wsU = true) (p : Char) :
    SpanU.tokOf u ≠ .punctuation p := by
  cases u <;> simp_all [SpanU.wsU, SpanU.tokOf]

theorem wsList_parts (l : List SpanU) (h : wsList l = true) :
    chainB l = true ∧ ∀ u ∈ l, u.wf = true ∧ u.wsU = true := by
  simp only [wsList, Bool.and_eq_true, List.all_eq_true] at h
  exact ⟨h.2, fun u hu => by have := h.1 u hu; simpa [Bool.and_eq_true] using this⟩

theorem spanu_getLast?_append (l1 l2 : List SpanU) (h : l2 ≠ []) :
    (l1 ++ l2).getLast? = l2.getLast? := by
  rw [List.getLast?_append]
  obtain ⟨a, ha⟩ := Option.isSome_iff_exists.mp (List.getLast?_isSome.mpr h)
  rw [ha]
  rfl

theorem spanu_getLast?_cons (a : SpanU) (l : List SpanU) (h : l ≠ []) :
    (a :: l).getLast? = l.getLast? := by
  cases l with
  | nil => exact absurd rfl h
  | cons b t => exact List.getLast?_cons_cons

theorem chainB_ws_append (pre block : List SpanU) (hpre : wsList pre = true)
    (hb : chainB block = true)
    (hh : ∀ u, block.head? = some u → u.spacey = false) :
    chainB (pre ++ block) = true := by
  obtain ⟨hch, hmem⟩ := wsList_parts pre hpre
  refine chainB_append pre block hch hb ?_
  intro a b ha hb2
  have haw : a.wsU = true := (hmem a (List.mem_of_mem_getLast? ha)).2
  exact chainOK_of a b (Or.inl (wsU_flushes a haw)) (Or.inr (hh b hb2))

theorem chainB_append_flushing (block tail : List SpanU)
    (hb : chainB block = true) (ht : chainB tail = true)
    (hl : ∀ u, block.getLast? = some u → u.spacey = false)
    (hh : ∀ u, tail.head? = some u → u.flushes = true) :
    chainB (block ++ tail) = true :=
  chainB_append _ _ hb ht
    (fun a b ha hb2 => chainOK_of a b (Or.inr (hh b hb2)) (Or.inl (hl a ha)))

theorem head_flushes_ws_append (l tail : List SpanU) (hl : wsList l = true)
    (hh : ∀ u, tail.head? = some u → u.flushes = true) :
    ∀ u, (l ++ tail).head? = some u → u.flushes = true := by
  cases l with
  | nil => simpa using hh
  | cons a rest =>
    intro u hu
    simp only [List.cons_append, List.head?_cons, Option.some.injEq] at hu
    subst hu
    exact wsU_flushes a ((wsList_parts _ hl).2 a (by simp)).2

/-- Shape facts of a rendered value needed by the chain and parser layers. -/
def JShape (w : WJson) : Prop :=
  chainB (spanJ w) = true ∧ (∀ u ∈ spanJ w, u.wf = true) ∧
  (∃ u us0, spanJ w = u :: us0 ∧ u.wsU = false ∧
    (SpanU.tokOf u).is_whitespace = false ∧
    (∀ p, SpanU.tokOf u = .punctuation p → p = '[' ∨ p = '{')) ∧
  (∀ u, (spanJ w).getLast? = some u → u.spacey = false) ∧
  wfuel w ≤ 16 * (spanJ w).length

/-- Shape facts of a rendered element sequence. -/
def EShape (es : WElems) : Prop :=
  chainB (spanE es) = true ∧ (∀ u ∈ spanE es, u.wf = true) ∧
  (∀ u, (spanE es).head? = some u →
    ∀ p, SpanU.tokOf u = .punctuation p → p = '[' ∨ p = '{') ∧
  (∀ u, (spanE es).getLast? = some u → u.spacey = false) ∧
  spanE es ≠ [] ∧
  efuel es ≤ 16 * (spanE es).length + 13

/-- Shape facts of a rendered member sequence. -/
def MShape (ms : WMembs) : Prop :=
  chainB (spanM ms) = true ∧ (∀ u ∈ spanM ms, u.wf = true) ∧
  (∀ u, (spanM ms).head? = some u →
    ∀ p, SpanU.tokOf u = .punctuation p → False) ∧
  (∀ u, (spanM ms).getLast? = some u → u.spacey = false) ∧
  spanM ms ≠ [] ∧
  mfuel ms ≤ 16 * (spanM ms).length + 13

theorem jshape_single (u : SpanU) (w : WJson) (hspan : spanJ w = [u])
    (hwf : u.wf = true) (hws : u.wsU = false)
    (htok : (SpanU.tokOf u).is_whitespace = false)
    (hp : ∀ p, SpanU.tokOf u = .punctuation p → p = '[' ∨ p = '{')
    (hfuel : wfuel w ≤ 16) : JShape w := by
  refine ⟨by rw [hspan]; rfl, ?_, ⟨u, [], hspan, hws, htok, hp⟩, ?_, ?_⟩
  · intro v hv
    rw [hspan] at hv
    simp only [List.mem_singleton] at hv
    subst hv
    exact hwf
  · intro v hv
    rw [hspan] at hv
    simp only [List.getLast?_singleton, Option.some.injEq] at hv
    subst hv
    exact notWsU_spacey u hws
  · rw [hspan]
    simpa using hfuel

/-- Shape facts for every well-formed tree, by strong induction on size. -/
theorem shape_all : ∀ n : Nat,
    (∀ w : WJson, sizeOf w ≤ n → wfJ w = true → JShape w) ∧
    (∀ es : WElems, sizeOf es ≤ n → wfE es = true → EShape es) ∧
    (∀ ms : WMembs, sizeOf ms ≤ n → wfM ms = true → MShape ms) := by
  intro n
  induction n with
  | zero =>
    refine ⟨?_, ?_, ?_⟩
    · intro w hw _; exact absurd hw (by cases w <;> simp)
    · intro es hes _; exact absurd hes (by cases es <;> simp)
    · intro ms hms _; exact absurd hms (by cases ms <;> simp)
  | succ n ih =>
    obtain ⟨ihJ, ihE, ihM⟩ := ih
    refine ⟨?_, ?_, ?_⟩
    -- values
    · intro w hw hwf
      cases w with
      | wnull =>
        refine jshape_single (.word ['n', 'u', 'l', 'l']) .wnull rfl (by decide) rfl
          (by decide) ?_ (by decide)
        intro p hp
        simp only [SpanU.tokOf] at hp
        rw [show Token.try_from_token ['n', 'u', 'l', 'l'] = some Token.null from rfl] at hp
        simp at hp
      | wbool b =>
        cases b with
        | true =>
          refine jshape_single (.word ['t', 'r', 'u', 'e']) (.wbool true) rfl (by decide) rfl
            (by decide) ?_ (by decide)
          intro p hp
          simp only [SpanU.tokOf] at hp
          rw [show Token.try_from_token ['t', 'r', 'u', 'e']
            = some (Token.bool ['t', 'r', 'u', 'e']) from rfl] at hp
          simp at hp
        | false =>
          refine jshape_single (.word ['f', 'a', 'l', 's', 'e']) (.wbool false) rfl (by decide)
            rfl (by decide) ?_ (by decide)
          intro p hp
          simp only [SpanU.tokOf] at hp
          rw [show Token.try_from_token ['f', 'a', 'l', 's', 'e']
            = some (Token.bool ['f', 'a', 'l', 's', 'e']) from rfl] at hp
          simp at hp
      | wnum s =>
        simp only [wfJ, Bool.and_eq_true] at hwf
        obtain ⟨⟨⟨hne, hplain⟩, hclass⟩, hf64⟩ := hwf
        have hcl : Token.try_from_token s = some (.number s) := of_decide_eq_true hclass
        have htokeq : SpanU.tokOf (.word s) = Token.number s := by
          simp [SpanU.tokOf, hcl]
        refine jshape_single (.word s) (.wnum s) rfl ?_ rfl ?_ ?_ (by simp [wfuel])
        · simp only [SpanU.wf, Bool.and_eq_true]
          exact ⟨⟨hne, hplain⟩, by simp [hcl]⟩
        · rw [htokeq]; rfl
        · intro p hp
          rw [htokeq] at hp
          simp at hp
      | wstr s =>
        refine jshape_single (.str s) (.wstr s) rfl ?_ rfl rfl ?_ (by simp [wfuel])
        · simpa [SpanU.wf, wfJ] using hwf
        · intro p hp
          simp only [SpanU.tokOf] at hp
          simp at hp
      | warrE =>
        refine ⟨rfl, ?_, ⟨.punct '[', [.punct ']'], rfl, rfl, rfl, ?_⟩, ?_, ?_⟩
        · intro u hu
          simp only [spanJ, List.mem_cons, List.not_mem_nil, or_false] at hu
          rcases hu with h | h <;> subst h <;> rfl
        · intro p hp
          simp only [SpanU.tokOf, Token.punctuation.injEq] at hp
          exact Or.inl hp.symm
        · intro u hu
          simp only [spanJ] at hu
          rw [List.getLast?_cons_cons] at hu
          simp only [List.getLast?_singleton, Option.some.injEq] at hu
          subst hu
          rfl
        · decide
      | wobjE =>
        refine ⟨rfl, ?_, ⟨.punct '{', [.punct '}'], rfl, rfl, rfl, ?_⟩, ?_, ?_⟩
        · intro u hu
          simp only [spanJ, List.mem_cons, List.not_mem_nil, or_false] at hu
          rcases hu with h | h <;> subst h <;> rfl
        · intro p hp
          simp only [SpanU.tokOf, Token.punctuation.injEq] at hp
          exact Or.inr hp.symm
        · intro u hu
          simp only [spanJ] at hu
          rw [List.getLast?_cons_cons] at hu
          simp only [List.getLast?_singleton, Option.some.injEq] at hu
          subst hu
          rfl
        · decide
      | warrN es =>
        simp only [wfJ] at hwf
        have hsz : sizeOf es ≤ n := by
          simp only [WJson.warrN.sizeOf_spec] at hw
          omega
        obtain ⟨hch, hall, hhead, hlast, hne, hfuel⟩ := ihE es hsz hwf
        refine ⟨?_, ?_, ⟨.punct '[', spanE es, rfl, rfl, rfl, ?_⟩, ?_, ?_⟩
        · exact chainB_cons_of _ _ hch (fun b _ => chainOK_punct_left '[' b)
        · intro u hu
          simp only [spanJ, List.mem_cons] at hu
          rcases hu with h | h
          · subst h; rfl
          · exact hall u h
        · intro p hp
          simp only [SpanU.tokOf, Token.punctuation.injEq] at hp
          exact Or.inl hp.symm
        · intro u hu
          simp only [spanJ] at hu
          rw [spanu_getLast?_cons _ _ hne] at hu
          exact hlast u hu
        · simp only [wfuel, spanJ, List.length_cons]
          omega
      | wobjN ms =>
        simp only [wfJ] at hwf
        have hsz : sizeOf ms ≤ n := by
          simp only [WJson.wobjN.sizeOf_spec] at hw
          omega
        obtain ⟨hch, hall, hhead, hlast, hne, hfuel⟩ := ihM ms hsz hwf
        refine ⟨?_, ?_, ⟨.punct '{', spanM ms, rfl, rfl, rfl, ?_⟩, ?_, ?_⟩
        · exact chainB_cons_of _ _ hch (fun b _ => chainOK_punct_left '{' b)
        · intro u hu
          simp only [spanJ, List.mem_cons] at hu
          rcases hu with h | h
          · subst h; rfl
          · exact hall u h
        · intro p hp
          simp only [SpanU.tokOf, Token.punctuation.injEq] at hp
          exact Or.inr hp.symm
        · intro u hu
          simp only [spanJ] at hu
          rw [spanu_getLast?_cons _ _ hne] at hu
          exact hlast u hu
        · simp only [wfuel, spanJ, List.length_cons]
          omega
    -- element sequences
    · intro es hes hwf
      cases es with
      | elast pre e post =>
        simp only [wfE, Bool.and_eq_true] at hwf
        obtain ⟨⟨hpre, hJ⟩, hpost⟩ := hwf
        have hsz : sizeOf e ≤ n := by
          simp only [WElems.elast.sizeOf_spec] at hes
          omega
        obtain ⟨hch, hall, ⟨u0, us0, hu0, hu0ws, hu0tok, hu0p⟩, hlast, hfuel⟩ := ihJ e hsz hJ
        have hu0sp : u0.spacey = false := notWsU_spacey u0 hu0ws
        have hbr : ∀ u, ([SpanU.punct ']'] : List SpanU).head? = some u → u.flushes = true := by
          intro u hu
          simp only [List.head?_cons, Option.some.injEq] at hu
          subst hu
          rfl
        have t1 : chainB (post ++ [SpanU.punct ']']) = true :=
          chainB_ws_append post _ hpost rfl (by
            intro u hu
            simp only [List.head?_cons, Option.some.injEq] at hu
            subst hu
            rfl)
        have t1h := head_flushes_ws_append post _ hpost hbr
        have t2 : chainB (spanJ e ++ (post ++ [SpanU.punct ']'])) = true :=
          chainB_append_flushing _ _ hch t1 hlast t1h
        have t3 : chainB (pre ++ (spanJ e ++ (post ++ [SpanU.punct ']']))) = true := by
          refine chainB_ws_append pre _ hpre t2 ?_
          intro u hu
          rw [hu0] at hu
          simp only [List.cons_append, List.head?_cons, Option.some.injEq] at hu
          rw [← hu]
          exact hu0sp
        refine ⟨?_, ?_, ?_, ?_, ?_, ?_⟩
        · simpa only [spanE, List.append_assoc] using t3
        · intro u hu
          simp only [spanE, List.mem_append, List.mem_singleton] at hu
          rcases hu with ((h | h) | h) | h
          · exact ((wsList_parts pre hpre).2 u h).1
          · exact hall u h
          · exact ((wsList_parts post hpost).2 u h).1
          · subst h; rfl
        · intro u hu p hptok
          cases pre with
          | nil =>
            simp only [spanE, List.nil_append] at hu
            rw [hu0] at hu
            simp only [List.cons_append, List.head?_cons, Option.some.injEq] at hu
            rw [← hu] at hptok
            exact hu0p p hptok
          | cons a pre2 =>
            simp only [spanE, List.cons_append, List.head?_cons, Option.some.injEq] at hu
            have haw := ((wsList_parts _ hpre).2 a (by simp)).2
            rw [← hu] at hptok
            exact absurd hptok (wsU_tok_not_punct a haw p)
        · intro u hu
          simp only [spanE] at hu
          rw [spanu_getLast?_append _ _ (by simp)] at hu
          simp only [List.getLast?_singleton, Option.some.injEq] at hu
          subst hu
          rfl
        · simp [spanE]
        · simp only [efuel, spanE, List.length_append, List.length_cons, List.length_nil]
          have hlen : (spanJ e).length = us0.length + 1 := by rw [hu0]; simp
          omega
      | econs pre e post rest =>
        simp only [wfE, Bool.and_eq_true] at hwf
        obtain ⟨⟨⟨hpre, hJ⟩, hpost⟩, hrest⟩ := hwf
        have hszJ : sizeOf e ≤ n := by
          simp only [WElems.econs.sizeOf_spec] at hes
          omega
        have hszE : sizeOf rest ≤ n := by
          simp only [WElems.econs.sizeOf_spec] at hes
          omega
        obtain ⟨hch, hall, ⟨u0, us0, hu0, hu0ws, hu0tok, hu0p⟩, hlast, hfuel⟩ := ihJ e hszJ hJ
        obtain ⟨hchR, hallR, hheadR, hlastR, hneR, hfuelR⟩ := ihE rest hszE hrest
        have hu0sp : u0.spacey = false := notWsU_spacey u0 hu0ws
        have tcons : chainB (SpanU.punct ',' :: spanE rest) = true :=
          chainB_cons_of _ _ hchR (fun b _ => chainOK_punct_left ',' b)
        have hcomma : ∀ u, (SpanU.punct ',' :: spanE rest).head? = some u →
            u.flushes = true := by
          intro u hu
          simp only [List.head?_cons, Option.some.injEq] at hu
          subst hu
          rfl
        have t1 : chainB (post ++ (SpanU.punct ',' :: spanE rest)) = true :=
          chainB_ws_append post _ hpost tcons (by
            intro u hu
            simp only [List.head?_cons, Option.some.injEq] at hu
            subst hu
            rfl)
        have t1h := head_flushes_ws_append post _ hpost hcomma
        have t2 : chainB (spanJ e ++ (post ++ (SpanU.punct ',' :: spanE rest))) = true :=
          chainB_append_flushing _ _ hch t1 hlast t1h
        have t3 : chainB (pre ++ (spanJ e ++ (post ++ (SpanU.punct ',' :: spanE rest))))
            = true := by
          refine chainB_ws_append pre _ hpre t2 ?_
          intro u hu
          rw [hu0] at hu
          simp only [List.cons_append, List.head?_cons, Option.some.injEq] at hu
          rw [← hu]
          exact hu0sp
        refine ⟨?_, ?_, ?_, ?_, ?_, ?_⟩
        · simpa only [spanE, List.append_assoc] using t3
        · intro u hu
          simp only [spanE, List.mem_append, List.mem_cons] at hu
          rcases hu with ((h | h) | h) | h | h
          · exact ((wsList_parts pre hpre).2 u h).1
          · exact hall u h
          · exact ((wsList_parts post hpost).2 u h).1
          · subst h; rfl
          · exact hallR u h
        · intro u hu p hptok
          cases pre with
          | nil =>
            simp only [spanE, List.nil_append] at hu
            rw [hu0] at hu
            simp only [List.cons_append, List.head?_cons, Option.some.injEq] at hu
            rw [← hu] at hptok
            exact hu0p p hptok
          | cons a pre2 =>
            simp only [spanE, List.cons_append, List.head?_cons, Option.some.injEq] at hu
            have haw := ((wsList_parts _ hpre).2 a (by simp)).2
            rw [← hu] at hptok
            exact absurd hptok (wsU_tok_not_punct a haw p)
        · intro u hu
          simp only [spanE] at hu
          rw [spanu_getLast?_append _ _ (by simp), spanu_getLast?_cons _ _ hneR] at hu
          exact hlastR u hu
        · simp [spanE]
        · simp only [efuel, spanE, List.length_append, List.length_cons]
          have hlen : (spanJ e).length = us0.length + 1 := by rw [hu0]; simp
          omega
    -- member sequences
    · intro ms hms hwf
      cases ms with
      | mlast pre k sep v post =>
        simp only [wfM, Bool.and_eq_true] at hwf
        obtain ⟨⟨⟨⟨⟨hpre, hk⟩, hsep⟩, hsepne⟩, hJ⟩, hpost⟩ := hwf
        have hsz : sizeOf v ≤ n := by
          simp only [WMembs.mlast.sizeOf_spec] at hms
          omega
        obtain ⟨hch, hall, ⟨u0, us0, hu0, hu0ws, hu0tok, hu0p⟩, hlast, hfuel⟩ := ihJ v hsz hJ
        have hu0sp : u0.spacey = false := notWsU_spacey u0 hu0ws
        have hbr : ∀ u, ([SpanU.punct '}'] : List SpanU).head? = some u → u.flushes = true := by
          intro u hu
          simp only [List.head?_cons, Option.some.injEq] at hu
          subst hu
          rfl
        have t1 : chainB (post ++ [SpanU.punct '}']) = true :=
          chainB_ws_append post _ hpost rfl (by
            intro u hu
            simp only [List.head?_cons, Option.some.injEq] at hu
            subst hu
            rfl)
        have t1h := head_flushes_ws_append post _ hpost hbr
        have t2 : chainB (spanJ v ++ (post ++ [SpanU.punct '}'])) = true :=
          chainB_append_flushing _ _ hch t1 hlast t1h
        have t3 : chainB (sep ++ (spanJ v ++ (post ++ [SpanU.punct '}']))) = true := by
          refine chainB_ws_append sep _ hsep t2 ?_
          intro u hu
          rw [hu0] at hu
          simp only [List.cons_append, List.head?_cons, Option.some.injEq] at hu
          rw [← hu]
          exact hu0sp
        have t4 : chainB (SpanU.punct ':' :: (sep ++ (spanJ v ++ (post ++ [SpanU.punct '}']))))
            = true := chainB_cons_of _ _ t3 (fun b _ => chainOK_punct_left ':' b)
        have t5 : chainB (SpanU.str k :: SpanU.punct ':'
            :: (sep ++ (spanJ v ++ (post ++ [SpanU.punct '}'])))) = true := by
          refine chainB_cons_of _ _ t4 ?_
          intro b hb
          simp only [List.head?_cons, Option.some.injEq] at hb
          rw [← hb]
          exact chainOK_of _ _ (Or.inr rfl) (Or.inl rfl)
        have t6 : chainB (pre ++ (SpanU.str k :: SpanU.punct ':'
            :: (sep ++ (spanJ v ++ (post ++ [SpanU.punct '}']))))) = true := by
          refine chainB_ws_append pre _ hpre t5 ?_
          intro u hu
          simp only [List.head?_cons, Option.some.injEq] at hu
          rw [← hu]
          rfl
        refine ⟨?_, ?_, ?_, ?_, ?_, ?_⟩
        · simpa only [spanM, List.append_assoc, List.cons_append] using t6
        · intro u hu
          simp only [spanM, List.mem_append, List.mem_cons, List.mem_singleton] at hu
          rcases hu with (((h | h) | h) | h) | h
          · exact ((wsList_parts pre hpre).2 u h).1
          · rcases h with h | h | h
            · subst h; simpa [SpanU.wf] using hk
            · subst h; rfl
            · exact ((wsList_parts sep hsep).2 u h).1
          · exact hall u h
          · exact ((wsList_parts post hpost).2 u h).1
          · rcases h with h | h
            · subst h; rfl
            · simp at h
        · intro u hu p hptok
          cases pre with
          | nil =>
            simp only [spanM, List.nil_append, List.cons_append, List.head?_cons,
              Option.some.injEq] at hu
            rw [← hu] at hptok
            simp [SpanU.tokOf] at hptok
          | cons a pre2 =>
            simp only [spanM, List.cons_append, List.head?_cons, Option.some.injEq] at hu
            have haw := ((wsList_parts _ hpre).2 a (by simp)).2
            rw [← hu] at hptok
            exact absurd hptok (wsU_tok_not_punct a haw p)
        · intro u hu
          simp only [spanM] at hu
          rw [spanu_getLast?_append _ _ (by simp)] at hu
          simp only [List.getLast?_singleton, Option.some.injEq] at hu
          subst hu
          rfl
        · simp [spanM]
        · simp only [mfuel, spanM, List.length_append, List.length_cons, List.length_nil]
          have hlen : (spanJ v).length = us0.length + 1 := by rw [hu0]; simp
          omega
      | mcons pre k sep v post rest =>
        simp only [wfM, Bool.and_eq_true] at hwf
        obtain ⟨⟨⟨⟨⟨⟨hpre, hk⟩, hsep⟩, hsepne⟩, hJ⟩, hpost⟩, hrest⟩ := hwf
        have hszJ : sizeOf v ≤ n := by
          simp only [WMembs.mcons.sizeOf_spec] at hms
          omega
        have hszM : sizeOf rest ≤ n := by
          simp only [WMembs.mcons.sizeOf_spec] at hms
          omega
        obtain ⟨hch, hall, ⟨u0, us0, hu0, hu0ws, hu0tok, hu0p⟩, hlast, hfuel⟩ := ihJ v hszJ hJ
        obtain ⟨hchR, hallR, hheadR, hlastR, hneR, hfuelR⟩ := ihM rest hszM hrest
        have hu0sp : u0.spacey = false := notWsU_spacey u0 hu0ws
        have tcons : chainB (SpanU.punct ',' :: spanM rest) = true :=
          chainB_cons_of _ _ hchR (fun b _ => chainOK_punct_left ',' b)
        have hcomma : ∀ u, (SpanU.punct ',' :: spanM rest).head? = some u →
            u.flushes = true := by
          intro u hu
          simp only [List.head?_cons, Option.some.injEq] at hu
          subst hu
          rfl
        have t1 : chainB (post ++ (SpanU.punct ',' :: spanM rest)) = true :=
          chainB_ws_append post _ hpost tcons (by
            intro u hu
            simp only [List.head?_cons, Option.some.injEq] at hu
            subst hu
            rfl)
        have t1h := head_flushes_ws_append post _ hpost hcomma
        have t2 : chainB (spanJ v ++ (post ++ (SpanU.punct ',' :: spanM rest))) = true :=
          chainB_append_flushing _ _ hch t1 hlast t1h
        have t3 : chainB (sep ++ (spanJ v ++ (post ++ (SpanU.punct ',' :: spanM rest))))
            = true := by
          refine chainB_ws_append sep _ hsep t2 ?_
          intro u hu
          rw [hu0] at hu
          simp only [List.cons_append, List.head?_cons, Option.some.injEq] at hu
          rw [← hu]
          exact hu0sp
        have t4 : chainB (SpanU.punct ':'
            :: (sep ++ (spanJ v ++ (post ++ (SpanU.punct ',' :: spanM rest))))) = true :=
          chainB_cons_of _ _ t3 (fun b _ => chainOK_punct_left ':' b)
        have t5 : chainB (SpanU.str k :: SpanU.punct ':'
            :: (sep ++ (spanJ v ++ (post ++ (SpanU.punct ',' :: spanM rest))))) = true := by
          refine chainB_cons_of _ _ t4 ?_
          intro b hb
          simp only [List.head?_cons, Option.some.injEq] at hb
          rw [← hb]
          exact chainOK_of _ _ (Or.inr rfl) (Or.inl rfl)
        have t6 : chainB (pre ++ (SpanU.str k :: SpanU.punct ':'
            :: (sep ++ (spanJ v ++ (post ++ (SpanU.punct ',' :: spanM rest)))))) = true := by
          refine chainB_ws_append pre _ hpre t5 ?_
          intro u hu
          simp only [List.head?_cons, Option.some.injEq] at hu
          rw [← hu]
          rfl
        refine ⟨?_, ?_, ?_, ?_, ?_, ?_⟩
        · simpa only [spanM, List.append_assoc, List.cons_append] using t6
        · intro u hu
          simp only [spanM, List.mem_append, List.mem_cons] at hu
          rcases hu with (((h | h) | h) | h) | h | h
          · exact ((wsList_parts pre hpre).2 u h).1
          · rcases h with h | h | h
            · subst h; simpa [SpanU.wf] using hk
            · subst h; rfl
            · exact ((wsList_parts sep hsep).2 u h).1
          · exact hall u h
          · exact ((wsList_parts post hpost).2 u h).1
          · subst h; rfl
          · exact hallR u h
        · intro u hu p hptok
          cases pre with
          | nil =>
            simp only [spanM, List.nil_append, List.cons_append, List.head?_cons,
              Option.some.injEq] at hu
            rw [← hu] at hptok
            simp [SpanU.tokOf] at hptok
          | cons a pre2 =>
            simp only [spanM, List.cons_append, List.head?_cons, Option.some.injEq] at hu
            have haw := ((wsList_parts _ hpre).2 a (by simp)).2
            rw [← hu] at hptok
            exact absurd hptok (wsU_tok_not_punct a haw p)
        · intro u hu
          simp only [spanM] at hu
          rw [spanu_getLast?_append _ _ (by simp), spanu_getLast?_cons _ _ hneR] at hu
          exact hlastR u hu
        · simp [spanM]
        · simp only [mfuel, spanM, List.length_append, List.length_cons]
          have hlen : (spanJ v).length = us0.length + 1 := by rw [hu0]; simp
          omega

/-- Shape facts of a well-formed value. -/
theorem shapeJ (w : WJson) (h : wfJ w = true) : JShape w :=
  (shape_all (sizeOf w)).1 w le_rfl h

/-- Shape facts of a well-formed element sequence. -/
theorem shapeE (es : WElems) (h : wfE es = true) : EShape es :=
  (shape_all (sizeOf es)).2.1 es le_rfl h

/-- Shape facts of a well-formed member sequence. -/
theorem shapeM (ms : WMembs) (h : wfM ms = true) : MShape ms :=
  (shape_all (sizeOf ms)).2.2 ms le_rfl h

/-! ### Parser evaluation lemmas for the rendered token stream -/

theorem parseWsAux_skip : ∀ (wsT : List Token), (∀ t ∈ wsT, t.is_whitespace = true) →
    ∀ (t0 : Token) (rest : List Token), t0.is_whitespace = false →
    ∀ l c, ∃ l2 c2, parseWsAux (wsT ++ t0 :: rest) l c = (t0 :: rest, l2, c2) := by
  intro wsT
  induction wsT with
  | nil =>
    intro _ t0 rest ht0 l c
    refine ⟨l, c, ?_⟩
    cases t0
    case newLine => simp [Token.is_whitespace] at ht0
    case whitespace => simp [Token.is_whitespace] at ht0
    all_goals rfl
  | cons t ts ih =>
    intro hws t0 rest ht0 l c
    have ht := hws t (by simp)
    cases t
    case newLine =>
      simpa [parseWsAux] using ih (fun x hx => hws x (by simp [hx])) t0 rest ht0 (l + 1) 1
    case whitespace n =>
      simpa [parseWsAux] using ih (fun x hx => hws x (by simp [hx])) t0 rest ht0 l (c + n)
    all_goals simp [Token.is_whitespace] at ht

theorem parse_whitespace_skip (st : PState) (wsT : List Token) (t0 : Token)
    (rest : List Token)
    (htoks : st.tokens = wsT ++ t0 :: rest) (hws : ∀ t ∈ wsT, t.is_whitespace = true)
    (ht0 : t0.is_whitespace = false) :
    ∃ l2 c2, parse_whitespace st = ⟨t0 :: rest, st.errors, l2, c2⟩ := by
  obtain ⟨l2, c2, h⟩ := parseWsAux_skip wsT hws t0 rest ht0 st.line_number st.col_number
  refine ⟨l2, c2, ?_⟩
  unfold parse_whitespace
  rw [htoks, h]

theorem countQuots_quote (xs : List Char) : countQuots ('"' :: xs) = countQuots xs + 1 := by
  conv_lhs => rw [countQuots.eq_def]
  split
  · rename_i rest heq
    simp only [List.cons.injEq] at heq
    exact absurd heq.1 (by decide)
  · rename_i rest heq
    simp only [List.cons.injEq, true_and] at heq
    rw [heq]
  · rename_i x rest hx1 hx2 heq
    simp only [List.cons.injEq] at heq
    exact absurd heq.1.symm hx2
  · rename_i heq
    simp at heq

theorem countQuots_plain (c : Char) (xs : List Char) (h1 : c ≠ '"') (h2 : c ≠ '\\') :
    countQuots (c :: xs) = countQuots xs := by
  conv_lhs => rw [countQuots.eq_def]
  split
  · rename_i rest heq
    simp only [List.cons.injEq] at heq
    exact absurd heq.1 h2
  · rename_i rest heq
    simp only [List.cons.injEq] at heq
    exact absurd heq.1 h1
  · rename_i x rest hx1 hx2 heq
    simp only [List.cons.injEq] at heq
    rw [heq.2]
  · rename_i heq
    simp at heq

theorem countQuots_aux (s : List Char) (h : ∀ c ∈ s, c ≠ '"' ∧ c ≠ '\\') :
    countQuots (s ++ ['"']) = 1 := by
  induction s with
  | nil =>
    rw [show (([] : List Char) ++ ['"']) = ['"'] from rfl, countQuots_quote]
    rfl
  | cons c s2 ih =>
    have hc := h c (by simp)
    rw [List.cons_append, countQuots_plain c _ hc.1 hc.2,
      ih (fun d hd => h d (by simp [hd]))]

theorem rustLen_str (s : List Char) : rustLen ('"' :: (s ++ ['"'])) = rustLen s + 2 := by
  simp only [rustLen, List.map_cons, List.map_append, List.sum_cons, List.sum_append,
    List.map_nil, List.sum_nil, show charUtf8Size '"' = 1 from rfl]
  omega

theorem parse_string_ok (s : List Char) (st : PState)
    (h : ∀ c ∈ s, c ≠ '"' ∧ c ≠ '\\') :
    parse_string ('"' :: (s ++ ['"'])) st
      = .ok (some (.string s))
          { st with tokens := st.tokens.drop 1,
                    col_number := st.col_number + rustLen ('"' :: (s ++ ['"'])) } := by
  have hq : countQuots ('"' :: (s ++ ['"'])) = 2 := by
    rw [countQuots_quote, countQuots_aux s h]
  have hlen : rustLen ('"' :: (s ++ ['"'])) = rustLen s + 2 := rustLen_str s
  have hlast? : ('"' :: (s ++ ['"'])).getLast? = some '"' := by
    rw [show ('"' :: (s ++ ['"'])) = ('"' :: s) ++ ['"'] from by simp]
    exact List.getLast?_concat _
  have hlast : ∀ hne, ('"' :: (s ++ ['"'])).getLast hne = '"' := by
    intro hne
    have := List.getLast?_eq_getLast ('"' :: (s ++ ['"'])) hne
    rw [hlast?] at this
    injection this with h3
    exact h3.symm
  unfold parse_string
  dsimp only
  rw [if_pos rfl]
  rw [hq, hlast, hlen]
  rw [if_neg (by simp), if_neg (by simp)]
  simp

theorem parse_number_ok (s : List Char) (q : ℚ) (st : PState) (hne : s ≠ [])
    (hq : parseF64 s = some q) :
    parse_number s st = .ok (some (.number q))
      { st with tokens := st.tokens.drop 1,
                col_number := st.col_number + rustLen s } := by
  cases s with
  | nil => exact absurd rfl hne
  | cons a s2 =>
    unfold parse_number
    dsimp only
    rw [hq]
    rfl

theorem untilLoop_stop (f : Nat) (endc : Char) (st : PState) (wsT rest : List Token)
    (d : Char) (htoks : st.tokens = wsT ++ Token.punctuation d :: rest)
    (hws : ∀ t ∈ wsT, t.is_whitespace = true)
    (hd : d = ',' ∨ d = endc) :
    ∃ l2 c2, parseUntilLoop (f + 1) endc false st
      = .ok () ⟨Token.punctuation d :: rest, st.errors, l2, c2⟩ := by
  obtain ⟨l2, c2, hpw⟩ := parse_whitespace_skip st wsT _ rest htoks hws rfl
  refine ⟨l2, c2, ?_⟩
  simp only [parseUntilLoop]
  rw [hpw]
  dsimp only
  by_cases hcomma : d = ','
  · subst hcomma
    rw [if_pos rfl]
    simp
  · rw [if_neg (by simp [hcomma])]
    rcases hd with hd | hd
    · exact absurd hd hcomma
    · subst hd
      rw [if_pos rfl]
      simp

theorem seq_sep_end (endc : Char) (st : PState) (rest : List Token)
    (htoks : st.tokens = Token.punctuation endc :: rest) (hne : endc ≠ ',') :
    ∃ l2 c2, parse_sequence_separator endc st = .ok true ⟨rest, st.errors, l2, c2⟩ := by
  obtain ⟨l2, c2, hpw⟩ := parse_whitespace_skip st [] (Token.punctuation endc) rest
    (by simpa using htoks) (by simp) rfl
  refine ⟨l2, c2 + 1, ?_⟩
  simp only [parse_sequence_separator]
  rw [hpw]
  dsimp only
  split
  · rename_i heq
    simp at heq
  · rename_i heq
    simp only [List.cons.injEq, Token.punctuation.injEq] at heq
    exact absurd heq.1 hne
  · rename_i heq
    simp only [List.cons.injEq, Token.punctuation.injEq] at heq
    exact absurd heq.1 hne
  · rename_i heq
    simp only [List.cons.injEq, Token.punctuation.injEq] at heq
    exact absurd heq.1 hne
  · rename_i heq
    simp only [List.cons.injEq, Token.punctuation.injEq] at heq
    obtain ⟨hp, hr⟩ := heq
    subst hp
    subst hr
    rw [if_pos rfl]
  · rename_i heq
    simp at heq
  · rename_i hp hnl heq
    simp only [List.cons.injEq] at heq
    exact absurd heq.1.symm (by intro hcon; exact hp endc hcon)

theorem seq_sep_comma (endc : Char) (st : PState) (rest : List Token)
    (htoks : st.tokens = Token.punctuation ',' :: rest) (hne : rest ≠ [])
    (hhead : ∀ p, rest.head? = some (Token.punctuation p) → p ≠ endc) :
    ∃ l2 c2, parse_sequence_separator endc st = .ok false ⟨rest, st.errors, l2, c2⟩ := by
  obtain ⟨l2, c2, hpw⟩ := parse_whitespace_skip st [] (Token.punctuation ',') rest
    (by simpa using htoks) (by simp) rfl
  refine ⟨l2, c2 + 1, ?_⟩
  simp only [parse_sequence_separator]
  rw [hpw]
  dsimp only
  split
  · rename_i heq
    simp at heq
  · rename_i heq
    simp only [List.cons.injEq, Token.punctuation.injEq] at heq
    exact absurd heq.2 hne
  · rename_i p r2 heq
    simp only [List.cons.injEq, Token.punctuation.injEq] at heq
    obtain ⟨h1, h2⟩ := heq
    rw [if_neg (by
      have := hhead p (by rw [h2]; rfl)
      simpa using this)]
    rw [h2]
  · rename_i heq
    simp only [List.cons.injEq, Token.punctuation.injEq] at heq
    rw [heq.2]
  · rename_i hx heq
    simp only [List.cons.injEq, Token.punctuation.injEq] at heq
    exact absurd heq.1.symm hx
  · rename_i heq
    simp at heq
  · rename_i hc hp hnl heq
    simp only [List.cons.injEq] at heq
    exact absurd heq.1.symm hc

theorem wsList_tok (l : List SpanU) (h : wsList l = true) :
    ∀ t ∈ l.map SpanU.tokOf, t.is_whitespace = true := by
  intro t ht
  simp only [List.mem_map] at ht
  obtain ⟨u, hu, ht⟩ := ht
  rw [← ht]
  exact wsU_tok_is_ws u ((wsList_parts l h).2 u hu).2

theorem tokJ_head_shape (w : WJson) (h : JShape w) :
    ∃ t ts, tokJ w = t :: ts ∧ t.is_whitespace = false ∧
      (∀ p, t = Token.punctuation p → p = '[' ∨ p = '{') := by
  obtain ⟨-, -, ⟨u, us, hu, -, htok, hp⟩, -, -⟩ := h
  exact ⟨SpanU.tokOf u, us.map SpanU.tokOf, by rw [tokJ, hu]; rfl, htok, hp⟩

theorem tokE_ne_nil (es : WElems) (h : EShape es) : tokE es ≠ [] := by
  obtain ⟨-, -, -, -, hne, -⟩ := h
  simp [tokE, hne]

theorem tokM_ne_nil (ms : WMembs) (h : MShape ms) : tokM ms ≠ [] := by
  obtain ⟨-, -, -, -, hne, -⟩ := h
  simp [tokM, hne]

theorem tokE_head_punct (es : WElems) (h : EShape es) :
    ∀ p, (tokE es).head? = some (Token.punctuation p) → p = '[' ∨ p = '{' := by
  intro p hp
  obtain ⟨-, -, hhead, -, hne, -⟩ := h
  cases hsp : spanE es with
  | nil => exact absurd hsp hne
  | cons u us =>
    rw [tokE, hsp] at hp
    simp only [List.map_cons, List.head?_cons, Option.some.injEq] at hp
    exact hhead u (by rw [hsp]; rfl) p hp

theorem tokM_head_punct (ms : WMembs) (h : MShape ms) :
    ∀ p, (tokM ms).head? = some (Token.punctuation p) → False := by
  intro p hp
  obtain ⟨-, -, hhead, -, hne, -⟩ := h
  cases hsp : spanM ms with
  | nil => exact absurd hsp hne
  | cons u us =>
    rw [tokM, hsp] at hp
    simp only [List.map_cons, List.head?_cons, Option.some.injEq] at hp
    exact hhead u (by rw [hsp]; rfl) p hp

theorem wfuel_pos (w : WJson) : 1 ≤ wfuel w := by
  cases w <;> simp [wfuel] <;> omega

theorem efuel_ge (es : WElems) : 3 ≤ efuel es := by
  cases es <;> simp [efuel] <;> omega

theorem mfuel_ge (ms : WMembs) : 3 ≤ mfuel ms := by
  cases ms <;> simp [mfuel] <;> omega

set_option maxHeartbeats 2000000 in
/-- Completeness of the recursive parser on rendered token streams: with
enough fuel, `parse_value` consumes exactly the rendered tokens of a
well-formed annotated value (after any leading whitespace tokens) and
returns its reference `strip` value with no new diagnostics, and the two
sequence loops likewise consume their rendered members.  Proved by strong
induction on the fuel. -/
theorem parser_complete : ∀ F : Nat,
    (∀ (w : WJson) (st : PState) (wsT rest : List Token), wfJ w = true →
      wfuel w ≤ F → st.tokens = wsT ++ (tokJ w ++ rest) →
      (∀ t ∈ wsT, t.is_whitespace = true) →
      ∃ l2 c2, parse_value F st = .ok (some (strip w)) ⟨rest, st.errors, l2, c2⟩) ∧
    (∀ (es : WElems) (acc : List Value) (st : PState) (rest : List Token), wfE es = true →
      efuel es ≤ F → st.tokens = tokE es ++ rest →
      ∃ l2 c2, parseArrayElementsLoop F acc st
        = .ok (some (acc ++ stripE es)) ⟨rest, st.errors, l2, c2⟩) ∧
    (∀ (ms : WMembs) (acc : List (List Char × Value)) (st : PState) (rest : List Token),
      wfM ms = true → mfuel ms ≤ F → st.tokens = tokM ms ++ rest →
      ∃ l2 c2, parseObjectMembersLoop F acc st
        = .ok (some (stripM acc ms)) ⟨rest, st.errors, l2, c2⟩) := by
  intro F
  induction F using Nat.strong_induction_on with
  | _ F ih =>
  refine ⟨?_, ?_, ?_⟩
  · intro w st wsT rest hwf hfe htoks hws
    cases F with
    | zero => exact absurd hfe (by have := wfuel_pos w; omega)
    | succ F1 =>
    cases w with
    | wnull =>
      have htoks2 : st.tokens = wsT ++ Token.null :: rest := by
        simpa [tokJ, spanJ, SpanU.tokOf] using htoks
      obtain ⟨l2, c2, hpw⟩ := parse_whitespace_skip st wsT Token.null rest htoks2 hws rfl
      refine ⟨l2, c2 + 4, ?_⟩
      simp only [parse_value]
      rw [hpw]
      rfl
    | wbool b =>
      cases b with
      | true =>
        have htoks2 : st.tokens = wsT ++ Token.bool ['t', 'r', 'u', 'e'] :: rest := by
          simpa [tokJ, spanJ, SpanU.tokOf] using htoks
        obtain ⟨l2, c2, hpw⟩ := parse_whitespace_skip st wsT _ rest htoks2 hws rfl
        refine ⟨l2, c2 + rustLen ['t', 'r', 'u', 'e'], ?_⟩
        simp only [parse_value]
        rw [hpw]
        rfl
      | false =>
        have htoks2 : st.tokens = wsT ++ Token.bool ['f', 'a', 'l', 's', 'e'] :: rest := by
          simpa [tokJ, spanJ, SpanU.tokOf] using htoks
        obtain ⟨l2, c2, hpw⟩ := parse_whitespace_skip st wsT _ rest htoks2 hws rfl
        refine ⟨l2, c2 + rustLen ['f', 'a', 'l', 's', 'e'], ?_⟩
        simp only [parse_value]
        rw [hpw]
        dsimp only
        rw [if_neg (by decide), if_pos rfl]
        rfl
    | wnum s =>
      simp only [wfJ, Bool.and_eq_true] at hwf
      obtain ⟨⟨⟨hne, hplain⟩, hclass⟩, hf64⟩ := hwf
      have hcl : Token.try_from_token s = some (.number s) := of_decide_eq_true hclass
      obtain ⟨q, hq⟩ := Option.isSome_iff_exists.mp hf64
      have hsne : s ≠ [] := by
        intro he; subst he; simp [List.isEmpty] at hne
      have htoks2 : st.tokens = wsT ++ Token.number s :: rest := by
        simpa [tokJ, spanJ, SpanU.tokOf, hcl] using htoks
      obtain ⟨l2, c2, hpw⟩ := parse_whitespace_skip st wsT _ rest htoks2 hws rfl
      refine ⟨l2, c2 + rustLen s, ?_⟩
      simp only [parse_value]
      rw [hpw]
      dsimp only
      rw [parse_number_ok s q _ hsne hq]
      simp [strip, hq]
    | wstr s =>
      have hstr : ∀ c ∈ s, c ≠ '"' ∧ c ≠ '\\' := by
        simp only [wfJ, List.all_eq_true] at hwf
        intro c hc
        have := hwf c hc
        simp only [Bool.and_eq_true, Bool.not_eq_true', beq_eq_false_iff_ne, ne_eq] at this
        exact this
      have htoks2 : st.tokens = wsT ++ Token.string ('"' :: (s ++ ['"'])) :: rest := by
        simpa [tokJ, spanJ, SpanU.tokOf] using htoks
      obtain ⟨l2, c2, hpw⟩ := parse_whitespace_skip st wsT _ rest htoks2 hws rfl
      refine ⟨l2, c2 + rustLen ('"' :: (s ++ ['"'])), ?_⟩
      simp only [parse_value]
      rw [hpw]
      dsimp only
      rw [parse_string_ok s _ hstr]
      simp [strip]
    | warrE =>
      have htoks2 : st.tokens
          = wsT ++ Token.punctuation '[' :: (Token.punctuation ']' :: rest) := by
        simpa [tokJ, spanJ, SpanU.tokOf] using htoks
      obtain ⟨l2, c2, hpw⟩ := parse_whitespace_skip st wsT _ _ htoks2 hws rfl
      refine ⟨l2, c2 + 2, ?_⟩
      simp only [parse_value]
      rw [hpw]
      dsimp only
      rw [if_neg (by decide), if_pos rfl]
      obtain ⟨F2, hf2⟩ : ∃ F2, F1 = F2 + 1 := by
        refine ⟨F1 - 1, ?_⟩
        simp only [wfuel] at hfe
        omega
      subst hf2
      simp only [parse_array]
      rfl
    | wobjE =>
      have htoks2 : st.tokens
          = wsT ++ Token.punctuation '{' :: (Token.punctuation '}' :: rest) := by
        simpa [tokJ, spanJ, SpanU.tokOf] using htoks
      obtain ⟨l2, c2, hpw⟩ := parse_whitespace_skip st wsT _ _ htoks2 hws rfl
      refine ⟨l2, c2 + 2, ?_⟩
      simp only [parse_value]
      rw [hpw]
      dsimp only
      rw [if_pos rfl]
      obtain ⟨F2, hf2⟩ : ∃ F2, F1 = F2 + 1 := by
        refine ⟨F1 - 1, ?_⟩
        simp only [wfuel] at hfe
        omega
      subst hf2
      simp only [parse_object]
      rfl
    | warrN es =>
      simp only [wfJ] at hwf
      have hE := shapeE es hwf
      have htoks2 : st.tokens = wsT ++ Token.punctuation '[' :: (tokE es ++ rest) := by
        simpa [tokJ, tokE, spanJ, SpanU.tokOf, List.append_assoc] using htoks
      obtain ⟨l2, c2, hpw⟩ := parse_whitespace_skip st wsT _ _ htoks2 hws rfl
      simp only [wfuel] at hfe
      obtain ⟨F2, hf2⟩ : ∃ F2, F1 = F2 + 1 := ⟨F1 - 1, by have := efuel_ge es; omega⟩
      subst hf2
      obtain ⟨F3, hf3⟩ : ∃ F3, F2 = F3 + 1 := ⟨F2 - 1, by have := efuel_ge es; omega⟩
      subst hf3
      obtain ⟨l3, c3, hloop⟩ := (ih F3 (by omega)).2.1 es []
        ⟨tokE es ++ rest, st.errors, l2, c2 + 1⟩ rest hwf (by have := efuel_ge es; omega) rfl
      refine ⟨l3, c3, ?_⟩
      simp only [parse_value]
      rw [hpw]
      dsimp only
      rw [if_neg (by decide), if_pos rfl]
      simp only [parse_array]
      split
      · rename_i heq
        simp only [List.cons.injEq, Token.punctuation.injEq] at heq
        obtain ⟨-, heq⟩ := heq
        exact absurd heq (fun hnil => tokE_ne_nil es hE (List.append_eq_nil.mp hnil).1)
      · rename_i rest2 heq
        simp only [List.cons.injEq, Token.punctuation.injEq] at heq
        obtain ⟨-, heq2⟩ := heq
        exfalso
        cases hte : tokE es with
        | nil => exact tokE_ne_nil es hE hte
        | cons t ts =>
          rw [hte] at heq2
          simp only [List.cons_append, List.cons.injEq] at heq2
          have := tokE_head_punct es hE ']' (by
            rw [tokE] at hte ⊢
            rw [hte, heq2.1]
            rfl)
          rcases this with h | h <;> simp at h
      · rename_i rest2 hx1 hx2 heq
        simp only [List.cons.injEq, Token.punctuation.injEq] at heq
        obtain ⟨-, heq2⟩ := heq
        subst heq2
        simp only [parse_array_elements]
        rw [if_neg (fun hnil => tokE_ne_nil es hE (List.append_eq_nil.mp hnil).1)]
        rw [hloop]
        simp [strip]
      · rename_i hx
        exact (hx (tokE es ++ rest) rfl).elim
    | wobjN ms =>
      simp only [wfJ] at hwf
      have hE := shapeM ms hwf
      have htoks2 : st.tokens = wsT ++ Token.punctuation '{' :: (tokM ms ++ rest) := by
        simpa [tokJ, tokM, spanJ, SpanU.tokOf, List.append_assoc] using htoks
      obtain ⟨l2, c2, hpw⟩ := parse_whitespace_skip st wsT _ _ htoks2 hws rfl
      simp only [wfuel] at hfe
      obtain ⟨F2, hf2⟩ : ∃ F2, F1 = F2 + 1 := ⟨F1 - 1, by have := mfuel_ge ms; omega⟩
      subst hf2
      obtain ⟨F3, hf3⟩ : ∃ F3, F2 = F3 + 1 := ⟨F2 - 1, by have := mfuel_ge ms; omega⟩
      subst hf3
      obtain ⟨l3, c3, hloop⟩ := (ih F3 (by omega)).2.2 ms []
        ⟨tokM ms ++ rest, st.errors, l2, c2 + 1⟩ rest hwf (by have := mfuel_ge ms; omega) rfl
      refine ⟨l3, c3, ?_⟩
      simp only [parse_value]
      rw [hpw]
      dsimp only
      rw [if_pos rfl]
      simp only [parse_object]
      split
      · rename_i heq
        simp only [List.cons.injEq, Token.punctuation.injEq] at heq
        obtain ⟨-, heq⟩ := heq
        exact absurd heq (fun hnil => tokM_ne_nil ms hE (List.append_eq_nil.mp hnil).1)
      · rename_i rest2 heq
        simp only [List.cons.injEq, Token.punctuation.injEq] at heq
        obtain ⟨-, heq2⟩ := heq
        exfalso
        cases hte : tokM ms with
        | nil => exact tokM_ne_nil ms hE hte
        | cons t ts =>
          rw [hte] at heq2
          simp only [List.cons_append, List.cons.injEq] at heq2
          have := tokM_head_punct ms hE '}' (by
            rw [tokM] at hte ⊢
            rw [hte, heq2.1]
            rfl)
          exact this
      · rename_i rest2 hx1 hx2 heq
        simp only [List.cons.injEq, Token.punctuation.injEq] at heq
        obtain ⟨-, heq2⟩ := heq
        subst heq2
        simp only [parse_object_members]
        rw [if_neg (fun hnil => tokM_ne_nil ms hE (List.append_eq_nil.mp hnil).1)]
        rw [hloop]
        simp [strip]
      · rename_i hx
        exact (hx (tokM ms ++ rest) rfl).elim
  · intro es acc st rest hwf hfe htoks
    cases F with
    | zero => exact absurd hfe (by have := efuel_ge es; omega)
    | succ F1 =>
    cases es with
    | elast pre e post =>
      simp only [wfE, Bool.and_eq_true] at hwf
      obtain ⟨⟨hpre, hJ⟩, hpost⟩ := hwf
      have hJs := shapeJ e hJ
      obtain ⟨t0, ts0, ht0, ht0ws, ht0p⟩ := tokJ_head_shape e hJs
      have ht0m : (spanJ e).map SpanU.tokOf = t0 :: ts0 := ht0
      have htoks2 : st.tokens
          = (pre.map SpanU.tokOf) ++ (t0 :: (ts0 ++ ((post.map SpanU.tokOf)
              ++ (Token.punctuation ']' :: rest)))) := by
        rw [htoks]
        simp [tokE, spanE, List.map_append, ht0m, List.cons_append, List.append_assoc, SpanU.tokOf]
      obtain ⟨l2, c2, hpw⟩ := parse_whitespace_skip st _ t0 _ htoks2
        (wsList_tok pre hpre) ht0ws
      simp only [efuel] at hfe
      obtain ⟨F2, hf2⟩ : ∃ F2, F1 = F2 + 1 := ⟨F1 - 1, by have := wfuel_pos e; omega⟩
      subst hf2
      obtain ⟨l3, c3, hval⟩ := (ih (F2 + 1) (by omega)).1 e
        ⟨t0 :: (ts0 ++ ((post.map SpanU.tokOf) ++ (Token.punctuation ']' :: rest))),
          st.errors, l2, c2⟩ []
        ((post.map SpanU.tokOf) ++ (Token.punctuation ']' :: rest)) hJ (by omega)
        (by simp [ht0, List.cons_append]) (by simp)
      dsimp only at hval
      obtain ⟨l4, c4, huntil⟩ := untilLoop_stop F2 ']'
        ⟨(post.map SpanU.tokOf) ++ (Token.punctuation ']' :: rest), st.errors, l3, c3⟩
        (post.map SpanU.tokOf) rest ']' rfl (wsList_tok post hpost) (Or.inr rfl)
      dsimp only at huntil
      obtain ⟨l5, c5, hsep⟩ := seq_sep_end ']'
        ⟨Token.punctuation ']' :: rest, st.errors, l4, c4⟩ rest rfl (by decide)
      dsimp only at hsep
      refine ⟨l5, c5, ?_⟩
      simp only [parseArrayElementsLoop]
      rw [hpw, hval]
      dsimp only
      rw [huntil]
      dsimp only
      rw [hsep]
      simp [stripE]
    | econs pre e post rest2 =>
      simp only [wfE, Bool.and_eq_true] at hwf
      obtain ⟨⟨⟨hpre, hJ⟩, hpost⟩, hrest⟩ := hwf
      have hJs := shapeJ e hJ
      have hEs := shapeE rest2 hrest
      obtain ⟨t0, ts0, ht0, ht0ws, ht0p⟩ := tokJ_head_shape e hJs
      have ht0m : (spanJ e).map SpanU.tokOf = t0 :: ts0 := ht0
      have htoks2 : st.tokens
          = (pre.map SpanU.tokOf) ++ (t0 :: (ts0 ++ ((post.map SpanU.tokOf)
              ++ (Token.punctuation ',' :: (tokE rest2 ++ rest))))) := by
        rw [htoks]
        simp [tokE, spanE, List.map_append, ht0m, List.cons_append, List.append_assoc, SpanU.tokOf]
      obtain ⟨l2, c2, hpw⟩ := parse_whitespace_skip st _ t0 _ htoks2
        (wsList_tok pre hpre) ht0ws
      simp only [efuel] at hfe
      obtain ⟨F2, hf2⟩ : ∃ F2, F1 = F2 + 1 := ⟨F1 - 1, by have := wfuel_pos e; omega⟩
      subst hf2
      obtain ⟨l3, c3, hval⟩ := (ih (F2 + 1) (by omega)).1 e
        ⟨t0 :: (ts0 ++ ((post.map SpanU.tokOf)
            ++ (Token.punctuation ',' :: (tokE rest2 ++ rest)))),
          st.errors, l2, c2⟩ []
        ((post.map SpanU.tokOf) ++ (Token.punctuation ',' :: (tokE rest2 ++ rest)))
        hJ (by omega) (by simp [ht0, List.cons_append]) (by simp)
      dsimp only at hval
      obtain ⟨l4, c4, huntil⟩ := untilLoop_stop F2 ']'
        ⟨(post.map SpanU.tokOf) ++ (Token.punctuation ',' :: (tokE rest2 ++ rest)),
          st.errors, l3, c3⟩
        (post.map SpanU.tokOf) (tokE rest2 ++ rest) ',' rfl (wsList_tok post hpost)
        (Or.inl rfl)
      dsimp only at huntil
      obtain ⟨l5, c5, hsep⟩ := seq_sep_comma ']'
        ⟨Token.punctuation ',' :: (tokE rest2 ++ rest), st.errors, l4, c4⟩
        (tokE rest2 ++ rest) rfl
        (by
          intro hnil
          exact tokE_ne_nil rest2 hEs (List.append_eq_nil.mp hnil).1)
        (by
          intro p hp
          rw [List.head?_append_of_ne_nil _ (tokE_ne_nil rest2 hEs)] at hp
          rcases tokE_head_punct rest2 hEs p hp with h | h <;> simp [h])
      dsimp only at hsep
      obtain ⟨l6, c6, hrec⟩ := (ih (F2 + 1) (by omega)).2.1 rest2 (acc ++ [strip e])
        ⟨tokE rest2 ++ rest, st.errors, l5, c5⟩ rest hrest (by omega) rfl
      dsimp only at hrec
      simp only [parseArrayElementsLoop] at hrec
      refine ⟨l6, c6, ?_⟩
      simp only [parseArrayElementsLoop]
      rw [hpw, hval]
      dsimp only
      rw [huntil]
      dsimp only
      rw [hsep]
      dsimp only
      rw [hrec]
      simp [stripE]
  · intro ms acc st rest hwf hfe htoks
    cases F with
    | zero => exact absurd hfe (by have := mfuel_ge ms; omega)
    | succ F1 =>
    cases ms with
    | mlast pre k sep v post =>
      simp only [wfM, Bool.and_eq_true] at hwf
      obtain ⟨⟨⟨⟨⟨hpre, hk⟩, hsep⟩, hsepne⟩, hJ⟩, hpost⟩ := hwf
      have hkey : ∀ c ∈ k, c ≠ '"' ∧ c ≠ '\\' := by
        intro c hc
        have := (List.all_eq_true.mp hk) c hc
        simp only [Bool.and_eq_true, Bool.not_eq_true', beq_eq_false_iff_ne, ne_eq] at this
        exact this
      cases sep with
      | nil => simp [List.isEmpty] at hsepne
      | cons u0 sep2 =>
      have hsep2ws : ∀ t ∈ sep2.map SpanU.tokOf, t.is_whitespace = true := by
        intro t ht
        simp only [List.mem_map] at ht
        obtain ⟨u, hu, htu⟩ := ht
        rw [← htu]
        exact wsU_tok_is_ws u ((wsList_parts _ hsep).2 u (by simp [hu])).2
      have htoks2 : st.tokens
          = (pre.map SpanU.tokOf) ++ (Token.string ('"' :: (k ++ ['"']))
            :: (Token.punctuation ':' :: (SpanU.tokOf u0 :: (sep2.map SpanU.tokOf
              ++ (tokJ v ++ ((post.map SpanU.tokOf)
                ++ (Token.punctuation '}' :: rest))))))) := by
        rw [htoks]
        simp [tokM, spanM, tokJ, List.map_append, List.cons_append, List.append_assoc,
          SpanU.tokOf]
      obtain ⟨l2, c2, hpw⟩ := parse_whitespace_skip st _ _ _ htoks2
        (wsList_tok pre hpre) rfl
      simp only [mfuel] at hfe
      obtain ⟨F2, hf2⟩ : ∃ F2, F1 = F2 + 1 := ⟨F1 - 1, by have := wfuel_pos v; omega⟩
      subst hf2
      obtain ⟨l3, c3, hval⟩ := (ih (F2 + 1) (by omega)).1 v
        ⟨sep2.map SpanU.tokOf ++ (tokJ v ++ ((post.map SpanU.tokOf)
            ++ (Token.punctuation '}' :: rest))),
          st.errors, l2,
          c2 + rustLen ('"' :: (k ++ ['"'])) + 1 + rustLen ('"' :: (k ++ ['"']))⟩
        (sep2.map SpanU.tokOf)
        ((post.map SpanU.tokOf) ++ (Token.punctuation '}' :: rest)) hJ (by omega)
        rfl hsep2ws
      dsimp only at hval
      obtain ⟨l4, c4, huntil⟩ := untilLoop_stop F2 '}'
        ⟨(post.map SpanU.tokOf) ++ (Token.punctuation '}' :: rest), st.errors, l3, c3⟩
        (post.map SpanU.tokOf) rest '}' rfl (wsList_tok post hpost) (Or.inr rfl)
      dsimp only at huntil
      obtain ⟨l5, c5, hsepE⟩ := seq_sep_end '}'
        ⟨Token.punctuation '}' :: rest, st.errors, l4, c4⟩ rest rfl (by decide)
      dsimp only at hsepE
      refine ⟨l5, c5, ?_⟩
      simp only [parseObjectMembersLoop]
      rw [hpw]
      simp only [List.cons.injEq]
      rw [parse_string_ok k _ hkey]
      dsimp only
      simp only [List.drop_succ_cons, List.drop_zero]
      rw [hval]
      dsimp only
      rw [huntil]
      dsimp only
      rw [hsepE]
      simp [stripM]
    | mcons pre k sep v post rest2 =>
      simp only [wfM, Bool.and_eq_true] at hwf
      obtain ⟨⟨⟨⟨⟨⟨hpre, hk⟩, hsep⟩, hsepne⟩, hJ⟩, hpost⟩, hrest⟩ := hwf
      have hMs := shapeM rest2 hrest
      have hkey : ∀ c ∈ k, c ≠ '"' ∧ c ≠ '\\' := by
        intro c hc
        have := (List.all_eq_true.mp hk) c hc
        simp only [Bool.and_eq_true, Bool.not_eq_true', beq_eq_false_iff_ne, ne_eq] at this
        exact this
      cases sep with
      | nil => simp [List.isEmpty] at hsepne
      | cons u0 sep2 =>
      have hsep2ws : ∀ t ∈ sep2.map SpanU.tokOf, t.is_whitespace = true := by
        intro t ht
        simp only [List.mem_map] at ht
        obtain ⟨u, hu, htu⟩ := ht
        rw [← htu]
        exact wsU_tok_is_ws u ((wsList_parts _ hsep).2 u (by simp [hu])).2
      have htoks2 : st.tokens
          = (pre.map SpanU.tokOf) ++ (Token.string ('"' :: (k ++ ['"']))
            :: (Token.punctuation ':' :: (SpanU.tokOf u0 :: (sep2.map SpanU.tokOf
              ++ (tokJ v ++ ((post.map SpanU.tokOf)
                ++ (Token.punctuation ',' :: (tokM rest2 ++ rest)))))))) := by
        rw [htoks]
        simp [tokM, spanM, tokJ, List.map_append, List.cons_append, List.append_assoc,
          SpanU.tokOf]
      obtain ⟨l2, c2, hpw⟩ := parse_whitespace_skip st _ _ _ htoks2
        (wsList_tok pre hpre) rfl
      simp only [mfuel] at hfe
      obtain ⟨F2, hf2⟩ : ∃ F2, F1 = F2 + 1 := ⟨F1 - 1, by have := wfuel_pos v; omega⟩
      subst hf2
      obtain ⟨l3, c3, hval⟩ := (ih (F2 + 1) (by omega)).1 v
        ⟨sep2.map SpanU.tokOf ++ (tokJ v ++ ((post.map SpanU.tokOf)
            ++ (Token.punctuation ',' :: (tokM rest2 ++ rest)))),
          st.errors, l2,
          c2 + rustLen ('"' :: (k ++ ['"'])) + 1 + rustLen ('"' :: (k ++ ['"']))⟩
        (sep2.map SpanU.tokOf)
        ((post.map SpanU.tokOf) ++ (Token.punctuation ',' :: (tokM rest2 ++ rest)))
        hJ (by omega) rfl hsep2ws
      dsimp only at hval
      obtain ⟨l4, c4, huntil⟩ := untilLoop_stop F2 '}'
        ⟨(post.map SpanU.tokOf) ++ (Token.punctuation ',' :: (tokM rest2 ++ rest)),
          st.errors, l3, c3⟩
        (post.map SpanU.tokOf) (tokM rest2 ++ rest) ',' rfl (wsList_tok post hpost)
        (Or.inl rfl)
      dsimp only at huntil
      obtain ⟨l5, c5, hsepC⟩ := seq_sep_comma '}'
        ⟨Token.punctuation ',' :: (tokM rest2 ++ rest), st.errors, l4, c4⟩
        (tokM rest2 ++ rest) rfl
        (by
          intro hnil
          exact tokM_ne_nil rest2 hMs (List.append_eq_nil.mp hnil).1)
        (by
          intro p hp
          rw [List.head?_append_of_ne_nil _ (tokM_ne_nil rest2 hMs)] at hp
          exact (tokM_head_punct rest2 hMs p hp).elim)
      dsimp only at hsepC
      obtain ⟨l6, c6, hrec⟩ := (ih (F2 + 1) (by omega)).2.2 rest2
        (insertMember acc k (strip v))
        ⟨tokM rest2 ++ rest, st.errors, l5, c5⟩ rest hrest (by omega) rfl
      dsimp only at hrec
      simp only [parseObjectMembersLoop] at hrec
      refine ⟨l6, c6, ?_⟩
      simp only [parseObjectMembersLoop]
      rw [hpw]
      simp only [List.cons.injEq]
      rw [parse_string_ok k _ hkey]
      dsimp only
      simp only [List.drop_succ_cons, List.drop_zero]
      rw [hval]
      dsimp only
      rw [huntil]
      dsimp only
      rw [hsepC]
      dsimp only
      rw [hrec]
      simp [stripM]

/-- C1, amended.  Round trip restricted to the texts the code actually
accepts: a JSON tree rendered with whitespace in canonical run form at the
positions the parser tolerates — arbitrary whitespace around array
elements and object members and at top level, a key immediately followed
by its colon, a mandatory nonempty whitespace gap after each colon
(`parse_string` silently consumes one extra token there), strings and keys
free of quotes and backslashes, numbers that `f64` parsing accepts, and
empty arrays and objects written exactly as the adjacent pairs `[]` and
`\x7b\x7d`.  For every such text, `parse` returns `Ok` with a `Value` tree
structurally identical to the reference tree (`strip`, with object members
inserted left to right with `HashMap::insert` semantics). -/
theorem c1_round_trip_for_renderable_texts (w : WJson) (pre post : List SpanU)
    (hw : wfJ w = true) (hpre : wsList pre = true) (hpost : wsList post = true) :
    parse (crender (pre ++ (spanJ w ++ post))) = .ok (.ok (strip w)) := by
  obtain ⟨hch, hall, ⟨u0, us0, hu0, hu0ws, hu0tok, hu0p⟩, hlast, hfuel⟩ := shapeJ w hw
  have hchPost : chainB (spanJ w ++ post) = true := by
    refine chainB_append_flushing _ _ hch (wsList_parts post hpost).1 hlast ?_
    intro u hu
    exact wsU_flushes u
      ((wsList_parts post hpost).2 u (List.mem_of_mem_head? hu)).2
  have hchAll : chainB (pre ++ (spanJ w ++ post)) = true := by
    refine chainB_ws_append pre _ hpre hchPost ?_
    intro u hu
    rw [hu0] at hu
    simp only [List.cons_append, List.head?_cons, Option.some.injEq] at hu
    rw [← hu]
    exact notWsU_spacey u0 hu0ws
  have hallAll : ∀ u ∈ pre ++ (spanJ w ++ post), u.wf = true := by
    intro u hu
    simp only [List.mem_append] at hu
    rcases hu with h | h | h
    · exact ((wsList_parts pre hpre).2 u h).1
    · exact hall u h
    · exact ((wsList_parts post hpost).2 u h).1
  have hlex := lex_spans _ hallAll hchAll
  have htokmap : (pre ++ (spanJ w ++ post)).map SpanU.tokOf
      = (pre.map SpanU.tokOf) ++ (tokJ w ++ (post.map SpanU.tokOf)) := by
    simp [tokJ, List.map_append]
  rw [htokmap] at hlex
  have hfuelOK : wfuel w ≤ parseFuel ((pre.map SpanU.tokOf)
      ++ (tokJ w ++ (post.map SpanU.tokOf))) := by
    simp only [parseFuel, List.length_append, List.length_map, tokJ]
    omega
  obtain ⟨l2, c2, hrun⟩ := (parser_complete (parseFuel ((pre.map SpanU.tokOf)
      ++ (tokJ w ++ (post.map SpanU.tokOf))))).1
    w ⟨(pre.map SpanU.tokOf) ++ (tokJ w ++ (post.map SpanU.tokOf)), [], 1, 1⟩
    (pre.map SpanU.tokOf) (post.map SpanU.tokOf) hw hfuelOK rfl
    (wsList_tok pre hpre)
  dsimp only at hrun
  have hpostws : (post.map SpanU.tokOf).all Token.is_whitespace = true :=
    List.all_eq_true.mpr (fun t ht => wsList_tok post hpost t ht)
  unfold parse
  rw [hlex]
  dsimp only
  rw [hrun]
  dsimp only
  rw [if_neg (by simp)]
  rw [if_neg (by simp [hpostws])]

/-- Piece of the `c1_witness` input: the concrete annotated tree for the
text ` \x7b"a": [1, null], "b":<newline><tab>"x" \x7d` followed by a newline. -/
def c1wTree : WJson :=
  .wobjN (.mcons [] ['a'] [.sps [' ']]
    (.warrN (.econs [] (.wnum ['1']) [] (.elast [.sps [' ']] .wnull [])))
    []
    (.mlast [.sps [' ']] ['b'] [.nl, .sps ['\t']] (.wstr ['x']) [.sps [' ']]))

/-- Witness for `c1_round_trip_for_renderable_texts` at a concrete nested
object with interior whitespace. -/
theorem c1_witness :
    parse (crender ([SpanU.sps [' ']] ++ (spanJ c1wTree ++ [SpanU.nl])))
      = .ok (.ok (strip c1wTree)) :=
  c1_round_trip_for_renderable_texts c1wTree [SpanU.sps [' ']] [SpanU.nl]
    (by decide) (by decide) (by decide)

end JPS
